import Mathlib

/-!
# ReadFiles: table helpers, block filters and archive readers

A shallow embedding of `ReadFile.go` and `ReadZipfromOnline.go`.

* A Go `string` is a Lean `String` (a sequence of Unicode scalar values, that
  is, a valid UTF-8 byte string). A `[][]string` that is only read, or built
  by appending to a fresh nil slice, is a `List (List String)`; a nil slice and
  an empty slice are both `[]`. The arguments of `Join2DArray`, which appends
  to a slice it was handed, are slice values over explicit backing arrays.
* A Go `error` is an `Option String`: `none` is `nil`, `some msg` is an error
  whose `Error()` text is `msg`.
* Calls into the operating system, the network and third-party decoders are
  answered by an explicit record of outcomes, and the filesystem is an explicit
  list of existing paths.
* `log.Println` calls that only trace entry and exit are left out.
-/

set_option autoImplicit false

namespace ReadFiles

/-- A row of string cells (`[]string`). -/
abbrev Row := List String

/-- A table of rows (`[][]string`), possibly ragged. -/
abbrev Table := List Row

/-! ## Library functions used by the filters -/

/-- Go `strings.ToLower` on a valid UTF-8 string: every rune is mapped by
`unicode.ToLower`, whose case table is the parameter `lower`. -/
def strings_ToLower (lower : Char → Char) (s : String) : String :=
  ⟨s.data.map lower⟩

/-- Whether `sub` is a leading segment of `s`. -/
def hasLead : List Char → List Char → Bool
  | _, [] => true
  | [], _ :: _ => false
  | c :: cs, d :: ds => c == d && hasLead cs ds

/-- Whether `sub` occurs in `s` at some offset. -/
def occursIn : List Char → List Char → Bool
  | [], sub => hasLead [] sub
  | c :: cs, sub => hasLead (c :: cs) sub || occursIn cs sub

/-- Go `strings.Contains(s, substr)`. -/
def strings_Contains (s substr : String) : Bool :=
  occursIn s.data substr.data

/-! ## `Join2DArray`

`Join2DArray` is the one function that appends to a slice it was handed, so
its arguments are slice values over explicit backing arrays. -/

/-- The backing arrays of the `[][]string` slices, by number. -/
abbrev Heap := List (List Row)

/-- A `[][]string` slice value: its backing array, the offset of its first
element in it, its length and its capacity. -/
structure Slice where
  array : Nat
  off : Nat
  len : Nat
  cap : Nat
  deriving DecidableEq

/-- The backing array with the given number. -/
def Heap.arrayAt (h : Heap) (a : Nat) : List Row :=
  h.getD a []

/-- The rows a slice shows. -/
def Slice.rows (h : Heap) (s : Slice) : Table :=
  ((h.arrayAt s.array).drop s.off).take s.len

/-- The element `s[i]` of a slice. -/
def Slice.index (h : Heap) (s : Slice) (i : Nat) : Row :=
  (h.arrayAt s.array).getD (s.off + i) []

/-- Go `append(s, x)` for one element. With spare capacity the element is
written into the backing array in place, right behind the slice; without, a
new array is allocated that holds the elements of the slice and `x`, its
capacity chosen by `grow` from the old capacity and the length needed. -/
def goAppend (grow : Nat → Nat → Nat) (h : Heap) (s : Slice) (x : Row) : Heap × Slice :=
  if s.len < s.cap then
    (h.set s.array ((h.arrayAt s.array).set (s.off + s.len) x),
      ⟨s.array, s.off, s.len + 1, s.cap⟩)
  else
    let newcap := Nat.max (s.len + 1) (grow s.cap (s.len + 1))
    (h ++ [s.rows h ++ [x] ++ List.replicate (newcap - (s.len + 1)) []],
      ⟨h.length, 0, s.len + 1, newcap⟩)

/-- The loop of `Join2DArray`: `n` counts the iterations still allowed, the
loop ends as soon as `ArrayIndex < len(pArray2)` fails. Every turn reads the
row `pArray2[ArrayIndex]` from the heap as it is then, and appends it to
`pArray1`. -/
def Join2DArray.loop (grow : Nat → Nat → Nat) (pArray2 : Slice) :
    Nat → Nat → Heap → Slice → Heap × Slice
  | 0, _, h, pArray1 => (h, pArray1)
  | n + 1, ArrayIndex, h, pArray1 =>
    if ArrayIndex < pArray2.len then
      match goAppend grow h pArray1 (pArray2.index h ArrayIndex) with
      | (h1, grown) => Join2DArray.loop grow pArray2 n (ArrayIndex + 1) h1 grown
    else (h, pArray1)

/-- The function `Join2DArray` of `ReadFile.go`. -/
def Join2DArray (grow : Nat → Nat → Nat) (h : Heap) (pArray1 pArray2 : Slice) : Heap × Slice :=
  Join2DArray.loop grow pArray2 pArray2.len 0 h pArray1

/-- A slice that fits its backing array. -/
def Slice.wf (h : Heap) (s : Slice) : Prop :=
  s.len ≤ s.cap ∧ s.off + s.cap ≤ (h.arrayAt s.array).length

/-- A growth rule for `append`: twice the old capacity, or the length needed
when that is more. -/
def doubling (old needed : Nat) : Nat :=
  Nat.max needed (2 * old)

/-- A heap with the single array `t = [[h], [x], [y]]`. -/
def sharedHeap : Heap :=
  [[["h"], ["x"], ["y"]]]

/-! ## The block filters -/

/-- The test of both scan loops on one row: `len(row) > 0` and the lowered
first cell contains the lowered start value. -/
def rowMatches (lower : Char → Char) (pStartvalue : String) (row : Row) : Bool :=
  match row with
  | [] => false
  | cell :: _ =>
    strings_Contains (strings_ToLower lower cell) (strings_ToLower lower pStartvalue)

/-- First loop of `Filter2DArray1`: remembers in `lIndex` the index of the
latest row that passed the test. -/
def Filter2DArray1.scan (lower : Char → Char) (pStartvalue : String) (pRows : Table) :
    Nat → Nat → Nat → Nat
  | 0, _, lIndex => lIndex
  | n + 1, i, lIndex =>
    match pRows[i]? with
    | none => lIndex
    | some row =>
      if rowMatches lower pStartvalue row then
        Filter2DArray1.scan lower pStartvalue pRows n (i + 1) i
      else
        Filter2DArray1.scan lower pStartvalue pRows n (i + 1) lIndex

/-- The copy loop shared by both filters, from index `j` on: a row without
cells is passed over, a row whose first cell is `""` breaks the loop, any
other row is appended to `lNewArr`. -/
def copyRows (pRows : Table) : Nat → Nat → Table → Table
  | 0, _, lNewArr => lNewArr
  | n + 1, j, lNewArr =>
    match pRows[j]? with
    | none => lNewArr
    | some row =>
      match row with
      | [] => copyRows pRows n (j + 1) lNewArr
      | cell :: _ =>
        if cell != "" then copyRows pRows n (j + 1) (lNewArr ++ [row])
        else lNewArr

/-- The function `Filter2DArray1` of `ReadFile.go`. -/
def Filter2DArray1 (lower : Char → Char) (pStartvalue : String) (pRows : Table) : Table :=
  let lIndex := Filter2DArray1.scan lower pStartvalue pRows pRows.length 0 0
  copyRows pRows (pRows.length - lIndex) lIndex []

/-- First loop of `Filter2DArray2`: collects in `lIndex` the index of every
row that passed the test. -/
def Filter2DArray2.scan (lower : Char → Char) (pStartvalue : String) (pRows : Table) :
    Nat → Nat → List Nat → List Nat
  | 0, _, lIndex => lIndex
  | n + 1, i, lIndex =>
    match pRows[i]? with
    | none => lIndex
    | some row =>
      if rowMatches lower pStartvalue row then
        Filter2DArray2.scan lower pStartvalue pRows n (i + 1) (lIndex ++ [i])
      else
        Filter2DArray2.scan lower pStartvalue pRows n (i + 1) lIndex

/-- Second loop of `Filter2DArray2`: for every recorded index in turn, the
copy loop is run from the following row. -/
def Filter2DArray2.blocks (pRows : Table) : List Nat → Table → Table
  | [], lNewArr => lNewArr
  | idx :: rest, lNewArr =>
    Filter2DArray2.blocks pRows rest
      (copyRows pRows (pRows.length - (idx + 1)) (idx + 1) lNewArr)

/-- The function `Filter2DArray2` of `ReadFile.go`. -/
def Filter2DArray2 (lower : Char → Char) (pStartvalue : String) (pRows : Table) : Table :=
  let lIndex := Filter2DArray2.scan lower pStartvalue pRows pRows.length 0 []
  Filter2DArray2.blocks pRows lIndex []

/-! ## Reading the loops as list operations -/

/-- A row that has at least one cell. -/
def hasCells (row : Row) : Bool :=
  match row with
  | [] => false
  | _ :: _ => true

/-- A row that has a first cell, and that cell is not the empty string. -/
def firstCellNonEmpty (row : Row) : Bool :=
  match row with
  | [] => false
  | cell :: _ => cell != ""

/-- The row at index `i`, a row without cells past the end. -/
def rowAt (pRows : Table) (i : Nat) : Row :=
  pRows.getD i []

/-- The indices, in ascending order, of the rows that pass the scan test. -/
def matchIndices (lower : Char → Char) (marker : String) (table : Table) : List Nat :=
  (List.range table.length).filter (fun i => rowMatches lower marker (rowAt table i))

/-- The index of the last row that passes the scan test, `0` when none does. -/
def lastMatchIndex (lower : Char → Char) (marker : String) (table : Table) : Nat :=
  (matchIndices lower marker table).getLast?.getD 0

/-- The copy loop of both filters as a list operation: among the rows from
index `start` on that have a cell, the leading ones whose first cell is not
empty. -/
def blockFrom (table : Table) (start : Nat) : Table :=
  ((table.drop start).filter hasCells).takeWhile firstCellNonEmpty

/-- The table of the worked example of `Filter2DArray1`. -/
def headerTable : Table :=
  [["X", "1"], ["HEADER", "2"], ["a", "3"], ["b", "4"], ["", "5"], ["c", "6"]]

/-- A table with two marker rows, each followed by a block. -/
def twoBlockTable : Table :=
  [["H", "1"], ["a", "2"], ["", "3"], ["h", "4"], ["b", "5"], ["c", "6"]]

/-- A ragged table with a marker row, a row without cells and a row whose
first cell is empty. -/
def raggedTable : Table :=
  [["M", "1", "2"], ["a"], [], ["b"], ["", "x"], ["c", "3"]]

/-- A row that breaks the copy loop: it has a first cell and that cell is the
empty string. -/
def endsBlock (row : Row) : Bool :=
  match row with
  | [] => false
  | cell :: _ => cell == ""

/-- Every earlier row that passes the scan test is parted from row `k`, when
that passes it too, by a row that breaks the copy loop. -/
def separatedBefore (lower : Char → Char) (marker : String) (table : Table) (k : Nat) : Prop :=
  ∀ i < k,
    rowMatches lower marker (rowAt table i) = true →
    rowMatches lower marker (rowAt table k) = true →
    ∃ j < k, i < j ∧ endsBlock (rowAt table j) = true

instance (lower : Char → Char) (marker : String) (table : Table) (k : Nat) :
    Decidable (separatedBefore lower marker table k) := by
  unfold separatedBefore; infer_instance

/-- Every two rows that pass the scan test have a row that breaks the copy
loop somewhere between them. -/
def markersSeparated (lower : Char → Char) (marker : String) (table : Table) : Prop :=
  ∀ k < table.length, separatedBefore lower marker table k

instance (lower : Char → Char) (marker : String) (table : Table) :
    Decidable (markersSeparated lower marker table) := by
  unfold markersSeparated; infer_instance

/-! ## `fmt.Errorf` with a format string and no operands -/

/-- Go `fmt.parsenum` on the slice `s[start:end]`, given as a list: the value
of the leading digits, whether there was a digit, and what follows them. A
value above `1e6` gives up and skips to the end of the slice. -/
def parsenum.loop : List Char → Nat → Bool → Nat × Bool × List Char
  | [], num, isnum => (num, isnum, [])
  | c :: cs, num, isnum =>
    if '0' ≤ c ∧ c ≤ '9' then
      if num > 1000000 then (0, false, [])
      else parsenum.loop cs (num * 10 + (c.toNat - '0'.toNat)) true
    else (num, isnum, c :: cs)

/-- Go `fmt.parsenum`. -/
def parsenum (s : List Char) : Nat × Bool × List Char :=
  parsenum.loop s 0 false

/-- Go `fmt.parseArgNumber` on a format that starts with `[`: the number of
characters to consume and whether a well-formed `[n]` was read. -/
def parseArgNumber (format : List Char) : Nat × Bool :=
  if format.length < 3 then (1, false)
  else
    let inner := (format.drop 1).takeWhile (fun c => c != ']')
    if inner.length = (format.drop 1).length then (1, false)
    else
      match parsenum inner with
      | (_, isnum, rest) => (inner.length + 2, isnum && rest.isEmpty)

/-- Go `(*pp).argNumber` when the call has no operands: an explicit index
`[n]` can never be in range, so `goodArgNum` is cleared whenever a bracket is
met. Returns the rest of the format, `found`, and `goodArgNum`. -/
def argNumber (format : List Char) (goodArgNum : Bool) : List Char × Bool × Bool :=
  match format with
  | '[' :: _ =>
    match parseArgNumber format with
    | (wid, ok) => (format.drop wid, ok, false)
  | _ => (format, false, goodArgNum)

/-- The flag characters skipped right after a `%`. -/
def isFlag (c : Char) : Bool :=
  c == '#' || c == '0' || c == '+' || c == '-' || c == ' '

/-- The width part of a verb, with no operands: `*` writes `%!(BADWIDTH)`. -/
def verbWidth (format : List Char) (afterIndex goodArgNum : Bool) :
    List Char × List Char × Bool × Bool :=
  match format with
  | '*' :: rest => ("%!(BADWIDTH)".data, rest, false, goodArgNum)
  | _ =>
    match parsenum format with
    | (_, widPresent, rest) =>
      ([], rest, afterIndex, if afterIndex && widPresent then false else goodArgNum)

/-- The precision part of a verb, with no operands: a dot with a character
behind it starts a precision, and `.*` writes `%!(BADPREC)`. A dot that is the
last character of the format is left to be read as the verb. -/
def verbPrec (format : List Char) (afterIndex goodArgNum : Bool) :
    List Char × List Char × Bool × Bool :=
  match format with
  | '.' :: c :: cs =>
    match argNumber (c :: cs) (if afterIndex then false else goodArgNum) with
    | (rest1, afterIndex1, good1) =>
      match rest1 with
      | '*' :: rest2 => ("%!(BADPREC)".data, rest2, false, good1)
      | _ =>
        match parsenum rest1 with
        | (_, _, rest2) => ([], rest2, afterIndex1, good1)
  | _ => ([], format, afterIndex, goodArgNum)

/-- One verb of `(*pp).doPrintf`, the `%` already consumed, when the call has
no operands: the text written, the rest of the format, and whether the end of
the format was hit before a verb character. -/
def doVerb (format : List Char) : List Char × List Char × Bool :=
  match argNumber (format.dropWhile isFlag) true with
  | (f2, afterIndex2, good2) =>
    match verbWidth f2 afterIndex2 good2 with
    | (out3, f3, afterIndex3, good3) =>
      match verbPrec f3 afterIndex3 good3 with
      | (out4, f4, afterIndex4, good4) =>
        match (if afterIndex4 then (f4, afterIndex4, good4) else argNumber f4 good4) with
        | (f5, _, good5) =>
          match f5 with
          | [] => (out3 ++ out4 ++ "%!(NOVERB)".data, [], true)
          | verb :: f6 =>
            if verb = '%' then (out3 ++ out4 ++ ['%'], f6, false)
            else if !good5 then
              (out3 ++ out4 ++ "%!".data ++ [verb] ++ "(BADINDEX)".data, f6, false)
            else
              (out3 ++ out4 ++ "%!".data ++ [verb] ++ "(MISSING)".data, f6, false)

/-- The format loop of `(*pp).doPrintf` with no operands; `n` bounds the
number of characters still to be read. -/
def doPrintf : Nat → List Char → List Char → List Char
  | 0, _, buf => buf
  | _ + 1, [], buf => buf
  | n + 1, c :: cs, buf =>
    if c = '%' then
      match doVerb cs with
      | (out, rest, stop) => if stop then buf ++ out else doPrintf n rest (buf ++ out)
    else doPrintf n cs (buf ++ [c])

/-- Go `fmt.Errorf(format)` called with a format string and no operands: the
text of the returned error. -/
def fmt_Errorf (format : String) : String :=
  ⟨doPrintf format.data.length format.data []⟩

/-! ## Outcomes of a call -/

/-- How a call ends: it returns, it panics, or it is still inside a loop when
the iteration budget of the model is used up. -/
inductive Run (α : Type) where
  | returned (a : α)
  | panicked (msg : String)
  | running
  deriving DecidableEq

/-! ## `encoding/csv` -/

/-- What `(*csv.Reader).Read` hands back: a record with a nil error, a non-nil
error other than `io.EOF` together with the record returned next to it (nil, a
partial record, or the whole record for `ErrFieldCount`), or `io.EOF`. -/
inductive ReadResult where
  | record (row : Row)
  | failure (row : Row) (msg : String)
  | eof
  deriving DecidableEq

/-- A `csv.Reader`: its internal state, `csv.NewReader` over a byte stream, and
`Read` as a function of the field `Comma` at the time of the call. -/
structure CsvReader where
  State : Type
  NewReader : String → State
  Read : Char → State → ReadResult × State

/-- The read loop of `ReadCSV`, `ReadText` and `ReadCsvFromZip`, with `Comma`
fixed before the loop: `io.EOF` breaks, every other result appends the row that
came with it. `none` when the budget `n` ends while the loop is running. -/
def readRows (R : CsvReader) (comma : Char) : Nat → R.State → Table → Option Table
  | 0, _, _ => none
  | n + 1, st, lRecord =>
    match R.Read comma st with
    | (ReadResult.eof, _) => some lRecord
    | (ReadResult.record lRecordRow, st1) => readRows R comma n st1 (lRecord ++ [lRecordRow])
    | (ReadResult.failure lRecordRow _, st1) =>
      readRows R comma n st1 (lRecord ++ [lRecordRow])

/-- The read loop of `ReadTextFromZip`: `Read` is called with the current
`Comma`, and only then is `Comma` set to `|`. -/
def ReadTextFromZip.loop (R : CsvReader) : Nat → Char → R.State → Table → Option Table
  | 0, _, _, _ => none
  | n + 1, comma, st, lRecord =>
    match R.Read comma st with
    | (ReadResult.eof, _) => some lRecord
    | (ReadResult.record lRecordRow, st1) =>
      ReadTextFromZip.loop R n '|' st1 (lRecord ++ [lRecordRow])
    | (ReadResult.failure lRecordRow _, st1) =>
      ReadTextFromZip.loop R n '|' st1 (lRecord ++ [lRecordRow])

/-! ## Uploaded files (`ReadFile.go`) -/

/-- A `multipart.FileHeader`, of which only `Filename` is used. -/
structure FileHeader where
  Filename : String
  deriving DecidableEq

/-- An `http.Request`, as far as the code looks at it: `r.FormFile(name)` gives
an error text, or the bytes of the uploaded file and its header. -/
structure Request where
  FormFile : String → Except String (String × FileHeader)

/-- The function `GetFileDetails`: the error, or the reader over the file
(given by its content), the content and the header. -/
def GetFileDetails (r : Request) (formName : String) :
    Except String (String × String × FileHeader) :=
  match r.FormFile formName with
  | Except.error lErr => Except.error (fmt_Errorf ("GetFileDetails:001" ++ lErr))
  | Except.ok (datas, header) => Except.ok (datas, datas, header)

/-- The function `ReadCSV`; `fuel` bounds the iterations of the read loop. -/
def ReadCSV (R : CsvReader) (fuel : Nat) (r : Request) (pFile : String) :
    Run (Table × Option String) :=
  match GetFileDetails r pFile with
  | Except.error lErr => Run.returned ([], some (fmt_Errorf ("ReadCSV:001" ++ lErr)))
  | Except.ok (lFile, _, _) =>
    match readRows R ',' fuel (R.NewReader lFile) [] with
    | none => Run.running
    | some lRecord => Run.returned (lRecord, none)

/-- The function `ReadText`; `fuel` bounds the iterations of the read loop. -/
def ReadText (R : CsvReader) (fuel : Nat) (r : Request) (pFile : String) :
    Run (Table × Option String) :=
  match GetFileDetails r pFile with
  | Except.error lErr => Run.returned ([], some (fmt_Errorf ("ReadText:001" ++ lErr)))
  | Except.ok (lFile, _, _) =>
    match readRows R '|' fuel (R.NewReader lFile) [] with
    | none => Run.running
    | some lRecord => Run.returned (lRecord, none)

/-! ## The filesystem -/

/-- The filesystem: the list of the paths that exist. -/
abbrev FS := List String

/-- A successful `os.Create(name)`: the path exists afterwards. -/
def FS.create (fs : FS) (name : String) : FS :=
  if name ∈ fs then fs else name :: fs

/-- A successful `os.Remove(name)`: the path no longer exists. -/
def FS.remove (fs : FS) (name : String) : FS :=
  fs.filter (fun p => p != name)

/-! ## `excelize` -/

/-- The spreadsheet decoder: opening a workbook from its bytes, and `GetRows`
of a sheet by name. -/
structure Excelize where
  Book : Type
  Open : String → Except String Book
  GetRows : Book → String → Except String Table

/-- The outcomes of the system calls made by `ReadXlsxFile`. -/
structure UploadWorld where
  Create : String → Option String
  Copy : String → String → Option String
  Remove : String → Option String

/-- The function `ReadXlsxFile`: the filesystem it leaves behind and the error
it returns. `os.Create` is taken to make the path exist when it succeeds and
to leave the filesystem alone when it fails, likewise `os.Remove`;
`excelize.OpenFile` decodes the bytes that were just copied to the path. -/
def ReadXlsxFile (X : Excelize) (w : UploadWorld) (fs : FS) (r : Request) (pFile : String) :
    FS × Option String :=
  match GetFileDetails r pFile with
  | Except.error lErr => (fs, some (fmt_Errorf ("ReadXlsFile:001" ++ lErr)))
  | Except.ok (lFile, _, Header) =>
    let fileName := "./" ++ Header.Filename
    match w.Create fileName with
    | some lErr => (fs, some (fmt_Errorf ("ReadXlsFile : 002" ++ lErr)))
    | none =>
      let fs1 := FS.create fs fileName
      match w.Copy fileName lFile with
      | some lErr => (fs1, some (fmt_Errorf ("ReadXlsFile : 003" ++ lErr)))
      | none =>
        match X.Open lFile with
        | Except.error lErr => (fs1, some (fmt_Errorf ("ReadXlsFile : 004" ++ lErr)))
        | Except.ok lNewFile =>
          match X.GetRows lNewFile "TabName" with
          | Except.error lErr => (fs1, some (fmt_Errorf ("ReadXlsFile : 005" ++ lErr)))
          | Except.ok _ =>
            match w.Remove fileName with
            | some lErr => (fs1, some (fmt_Errorf ("ReadXlsFile : 005-" ++ lErr)))
            | none => (FS.remove fs1 fileName, none)

/-! ## Archives (`ReadZipfromOnline.go`) -/

/-- A `zip.File`: its name and what `file.Open()` gives, an error text or the
byte stream of the entry. -/
structure ZipFile where
  Name : String
  Open : Except String String

/-- The text Go gives a call through a nil interface value. -/
def nilDereference : String :=
  "runtime error: invalid memory address or nil pointer dereference"

/-- The function `ReadCsvFromZip`. `defer lFile.Close()` stands before the
error check: when `file.Open()` failed, `lFile` is a nil interface value and
the deferred call panics. -/
def ReadCsvFromZip (R : CsvReader) (fuel : Nat) (file : ZipFile) :
    Run (Table × Option String) :=
  match file.Open with
  | Except.error _ => Run.panicked nilDereference
  | Except.ok lFile =>
    match readRows R ',' fuel (R.NewReader lFile) [] with
    | none => Run.running
    | some lRecord => Run.returned (lRecord, none)

/-- The function `ReadTextFromZip`. The reader starts with the default `Comma`
of `csv.NewReader`, a comma. -/
def ReadTextFromZip (R : CsvReader) (fuel : Nat) (file : ZipFile) :
    Run (Table × Option String) :=
  match file.Open with
  | Except.error _ => Run.panicked nilDereference
  | Except.ok lFile =>
    match ReadTextFromZip.loop R fuel ',' (R.NewReader lFile) [] with
    | none => Run.running
    | some lRecord => Run.returned (lRecord, none)

/-- The function `ReadXlsxFromZip`; its errors are built with `%v` and an
operand, which writes the cause as it is. -/
def ReadXlsxFromZip (X : Excelize) (file : ZipFile) : Table × Option String :=
  match file.Open with
  | Except.error err => ([], some ("ReadXlsxFromZip: Failed to open file: " ++ err))
  | Except.ok lFile =>
    match X.Open lFile with
    | Except.error err => ([], some ("ReadXlsxFromZip: Failed to open XLSX file: " ++ err))
    | Except.ok xlsxFile =>
      match X.GetRows xlsxFile "Sheet1" with
      | Except.error err =>
        ([], some ("ReadXlsxFromZip: Failed to get rows from XLSX file: " ++ err))
      | Except.ok rows => (rows, none)

/-- The loop of `filepath.Ext` on a Unix path, walking back from the end:
`suffix` is what has been passed so far. -/
def filepath_Ext.loop : List Char → List Char → List Char
  | [], _ => []
  | c :: cs, suffix =>
    if c = '/' then []
    else if c = '.' then '.' :: suffix
    else filepath_Ext.loop cs (c :: suffix)

/-- Go `filepath.Ext`: the suffix of the last path element from its last dot,
empty when it has no dot. -/
def filepath_Ext (path : String) : String :=
  ⟨filepath_Ext.loop path.data.reverse []⟩

/-- The three readers `ReadZip` can hand an entry to. -/
inductive Reader where
  | csv
  | text
  | xlsx
  deriving DecidableEq

/-- What a run of `ReadZip` leaves behind: the filesystem, the reader calls it
made with the name of the entry, what it logged with `log.Println(lData)`, and
how it ended. -/
structure ZipRun where
  fs : FS
  calls : List (Reader × String)
  logged : List Table
  out : Run (Table × Option String)

/-- The loop of `ReadZip` over the entries of the archive. An error of a
reader returns at once; a panic of a reader ends the run. The closing
`return lFileData, lErr` hands back the `lErr` of `zip.OpenReader`, which is
nil once the loop is reached. -/
def ReadZip.loop (R : CsvReader) (X : Excelize) (fuel : Nat) (fs : FS) :
    List ZipFile → List (Reader × String) → List Table → ZipRun
  | [], calls, logged => ⟨fs, calls, logged, Run.returned ([], none)⟩
  | lFile :: rest, calls, logged =>
    if filepath_Ext lFile.Name = ".csv" then
      match ReadCsvFromZip R fuel lFile with
      | Run.returned (_, some lErr) =>
        ⟨fs, calls ++ [(Reader.csv, lFile.Name)], logged,
          Run.returned ([], some (fmt_Errorf ("ReadZip:006" ++ lErr)))⟩
      | Run.returned (lData, none) =>
        ReadZip.loop R X fuel fs rest (calls ++ [(Reader.csv, lFile.Name)]) (logged ++ [lData])
      | Run.panicked msg => ⟨fs, calls ++ [(Reader.csv, lFile.Name)], logged, Run.panicked msg⟩
      | Run.running => ⟨fs, calls ++ [(Reader.csv, lFile.Name)], logged, Run.running⟩
    else if filepath_Ext lFile.Name = ".txt" then
      match ReadTextFromZip R fuel lFile with
      | Run.returned (_, some lErr) =>
        ⟨fs, calls ++ [(Reader.text, lFile.Name)], logged,
          Run.returned ([], some (fmt_Errorf ("ReadZip:006" ++ lErr)))⟩
      | Run.returned (lData, none) =>
        ReadZip.loop R X fuel fs rest (calls ++ [(Reader.text, lFile.Name)]) (logged ++ [lData])
      | Run.panicked msg => ⟨fs, calls ++ [(Reader.text, lFile.Name)], logged, Run.panicked msg⟩
      | Run.running => ⟨fs, calls ++ [(Reader.text, lFile.Name)], logged, Run.running⟩
    else if filepath_Ext lFile.Name = ".xlsx" then
      match ReadXlsxFromZip X lFile with
      | (_, some lErr) =>
        ⟨fs, calls ++ [(Reader.xlsx, lFile.Name)], logged,
          Run.returned ([], some (fmt_Errorf ("ReadZip:006" ++ lErr)))⟩
      | (lData, none) =>
        ReadZip.loop R X fuel fs rest (calls ++ [(Reader.xlsx, lFile.Name)]) (logged ++ [lData])
    else ReadZip.loop R X fuel fs rest calls logged

/-- The outcomes of the network and system calls made by `ReadZip`: the error
of `http.NewRequest` for a URL, the error of `lClient.Do`, the error of
`os.Create` for a path, the error of `io.Copy`, and what `zip.OpenReader`
finds in the file. -/
structure ZipWorld where
  NewRequest : String → Option String
  Do : String → Option String
  Create : String → Option String
  Copy : String → Option String
  OpenReader : String → Except String (List ZipFile)

/-- The function `ReadZip`. `os.Create` is taken to make the path exist when
it succeeds and to leave the filesystem alone when it fails. No statement of
the function removes the file. -/
def ReadZip (R : CsvReader) (X : Excelize) (w : ZipWorld) (fuel : Nat) (fs : FS)
    (pUrl pFilename : String) : ZipRun :=
  let lZipFileName := pFilename
  match w.NewRequest pUrl with
  | some lErr => ⟨fs, [], [], Run.returned ([], some (fmt_Errorf ("ReadZip:001" ++ lErr)))⟩
  | none =>
    match w.Do pUrl with
    | some lErr => ⟨fs, [], [], Run.returned ([], some (fmt_Errorf ("ReadZip:002" ++ lErr)))⟩
    | none =>
      match w.Create lZipFileName with
      | some lErr =>
        ⟨fs, [], [], Run.returned ([], some (fmt_Errorf ("ReadZip:003" ++ lErr)))⟩
      | none =>
        let fs1 := FS.create fs lZipFileName
        match w.Copy lZipFileName with
        | some lErr =>
          ⟨fs1, [], [], Run.returned ([], some (fmt_Errorf ("ReadZip:004" ++ lErr)))⟩
        | none =>
          match w.OpenReader lZipFileName with
          | Except.error lErr =>
            ⟨fs1, [], [], Run.returned ([], some (fmt_Errorf ("ReadZip:005" ++ lErr)))⟩
          | Except.ok File => ReadZip.loop R X fuel fs1 File [] []

/-! ## A concrete `csv.Reader` for plain input -/

/-- The state of the plain reader: the bytes not yet read, the field
`FieldsPerRecord` (`0` until the first record sets it) and the number of lines
read. -/
structure PlainState where
  input : List Char
  FieldsPerRecord : Nat
  numLine : Nat
  deriving DecidableEq

/-- The next line that is not empty, what follows it, and its line number;
`none` at the end of the input. Empty lines are skipped. -/
def nextLine : List Char → Nat → Option (List Char × List Char × Nat)
  | [], _ => none
  | c :: cs, n =>
    if c = '\n' then nextLine cs (n + 1)
    else
      some ((c :: cs).takeWhile (fun d => d != '\n'),
        ((c :: cs).dropWhile (fun d => d != '\n')).drop 1, n + 1)

/-- The fields of a line without quotes, split at every `comma`; `field` holds
the characters of the current field, last one first. -/
def splitFields (comma : Char) : List Char → List Char → Row
  | [], field => [String.mk field.reverse]
  | c :: cs, field =>
    if c = comma then String.mk field.reverse :: splitFields comma cs []
    else splitFields comma cs (c :: field)

/-- `(*csv.Reader).Read` with the default settings on input that has no double
quote and no carriage return: the next non-empty line is split at `comma`; the
first record fixes `FieldsPerRecord`, and a later record with another number of
fields comes back together with `ErrFieldCount`. -/
def plainRead (comma : Char) (st : PlainState) : ReadResult × PlainState :=
  match nextLine st.input st.numLine with
  | none => (ReadResult.eof, ⟨[], st.FieldsPerRecord, st.numLine⟩)
  | some (line, rest, n) =>
    let dst := splitFields comma line []
    if st.FieldsPerRecord = 0 then
      (ReadResult.record dst, ⟨rest, dst.length, n⟩)
    else if dst.length ≠ st.FieldsPerRecord then
      (ReadResult.failure dst
        ("record on line " ++ String.mk (Nat.toDigits 10 n) ++ ": wrong number of fields"),
        ⟨rest, st.FieldsPerRecord, n⟩)
    else (ReadResult.record dst, ⟨rest, st.FieldsPerRecord, n⟩)

/-- The plain reader as a `CsvReader`. -/
def plainCsv : CsvReader where
  State := PlainState
  NewReader := fun content => ⟨content.data, 0, 0⟩
  Read := plainRead

/-- A sample spreadsheet decoder: every byte stream opens, and the workbook has
the single sheet `Sheet1` with one cell that holds the bytes. -/
def sheetOne : Excelize where
  Book := String
  Open := fun content => Except.ok content
  GetRows := fun book sheet =>
    if sheet = "Sheet1" then Except.ok [[book]]
    else Except.error ("sheet " ++ sheet ++ " does not exist")

/-! ## Notions used to state the properties -/

/-- The reader that goes with a file name: by the extension `.csv`, `.txt` or
`.xlsx`, compared exactly; none for any other name. -/
def readerFor (name : String) : Option Reader :=
  if filepath_Ext name = ".csv" then some Reader.csv
  else if filepath_Ext name = ".txt" then some Reader.text
  else if filepath_Ext name = ".xlsx" then some Reader.xlsx
  else none

/-- A reader call that returned with a nil error. -/
def succeeded : Run (Table × Option String) → Bool
  | Run.returned (_, none) => true
  | _ => false

/-- An entry that is skipped, or whose reader returns with a nil error. -/
def entryDecodes (R : CsvReader) (X : Excelize) (fuel : Nat) (file : ZipFile) : Bool :=
  match readerFor file.Name with
  | none => true
  | some Reader.csv => succeeded (ReadCsvFromZip R fuel file)
  | some Reader.text => succeeded (ReadTextFromZip R fuel file)
  | some Reader.xlsx => (ReadXlsxFromZip X file).2.isNone

/-- The row that comes with a result of `Read`. -/
def rowOf : ReadResult → Row
  | ReadResult.record row => row
  | ReadResult.failure row _ => row
  | ReadResult.eof => []

/-- A result of `Read` with an error that is not `io.EOF`. -/
def isFailure : ReadResult → Bool
  | ReadResult.failure _ _ => true
  | _ => false

/-- The results of the successive calls of `Read` with a fixed `Comma`, up to
the first `io.EOF` (left out) or to `n` calls, and whether `io.EOF` was
reached. -/
def readsBeforeEOF (R : CsvReader) (comma : Char) : Nat → R.State → List ReadResult × Bool
  | 0, _ => ([], false)
  | n + 1, st =>
    match R.Read comma st with
    | (ReadResult.eof, _) => ([], true)
    | (res, st1) => (res :: (readsBeforeEOF R comma n st1).1, (readsBeforeEOF R comma n st1).2)

/-- A request whose form file has the given bytes and file name. -/
def uploadOf (content name : String) : Request :=
  ⟨fun _ => Except.ok (content, ⟨name⟩)⟩

/-- A world in which every network and system call of `ReadZip` succeeds and
the downloaded archive has the given entries. -/
def archiveWorld (File : List ZipFile) : ZipWorld where
  NewRequest := fun _ => none
  Do := fun _ => none
  Create := fun _ => none
  Copy := fun _ => none
  OpenReader := fun _ => Except.ok File

/-- A world in which every system call of `ReadXlsxFile` succeeds. -/
def uploadWorld : UploadWorld where
  Create := fun _ => none
  Copy := fun _ _ => none
  Remove := fun _ => none

/-- A decoder whose workbooks have the sheet `TabName`. -/
def tabName : Excelize where
  Book := String
  Open := fun content => Except.ok content
  GetRows := fun book sheet =>
    if sheet = "TabName" then Except.ok [[book]]
    else Except.error ("sheet " ++ sheet ++ " does not exist")

/-- An archive with a CSV entry, a spreadsheet, a text entry and two entries
that no reader takes. -/
def sampleArchive : List ZipFile :=
  [⟨"a.csv", Except.ok "x,y\n1,2\n"⟩, ⟨"b.xlsx", Except.ok "PK"⟩,
   ⟨"c.unknown", Except.ok "?"⟩, ⟨"D.CSV", Except.ok "p,q\n"⟩,
   ⟨"dir/e.txt", Except.ok "u|v\n"⟩]

/-- The text of the error of `http.NewRequest` for the URL `http://a%zz`. -/
def badEscape : String :=
  "parse \"http://a%zz\": invalid URL escape \"%zz\""

/-- A world in which `http.NewRequest` rejects the URL `http://a%zz`. -/
def badUrlWorld : ZipWorld where
  NewRequest := fun pUrl => if pUrl = "http://a%zz" then some badEscape else none
  Do := fun _ => none
  Create := fun _ => none
  Copy := fun _ => none
  OpenReader := fun _ => Except.ok []

/-! ## Lemmas on the loops -/

theorem getElem?_drop_cons {α : Type} (l : List α) (i : Nat) (a : α)
    (h : l[i]? = some a) : l.drop i = a :: l.drop (i + 1) := by
  obtain ⟨hi, rfl⟩ := List.getElem?_eq_some.mp h
  exact List.drop_eq_getElem_cons hi

theorem take_set_succ {α : Type} : ∀ (l : List α) (n : Nat) (x : α), n < l.length →
    (l.set n x).take (n + 1) = l.take n ++ [x] := by
  intro l
  induction l with
  | nil => intro n x h; simp at h
  | cons a l ih =>
    intro n x h
    cases n with
    | zero => simp
    | succ n =>
      simp only [List.set_cons_succ, List.take_succ_cons, List.cons_append, List.cons.injEq,
        true_and]
      exact ih n x (by simpa using h)

theorem drop_set_add {α : Type} : ∀ (off : Nat) (l : List α) (k : Nat) (x : α),
    (l.set (off + k) x).drop off = (l.drop off).set k x := by
  intro off
  induction off with
  | zero => intro l k x; simp
  | succ off ih =>
    intro l k x
    cases l with
    | nil => simp
    | cons a l =>
      have e : off + 1 + k = (off + k) + 1 := by omega
      rw [e]
      simp only [List.set_cons_succ, List.drop_succ_cons]
      exact ih l k x

theorem arrayAt_set_self (h : Heap) (a : Nat) (v : List Row) (ha : a < h.length) :
    Heap.arrayAt (h.set a v) a = v := by
  simp [Heap.arrayAt, List.getD_eq_getElem?_getD, List.getElem?_set_self, ha]

theorem arrayAt_set_ne (h : Heap) (a b : Nat) (v : List Row) (hab : a ≠ b) :
    Heap.arrayAt (h.set a v) b = Heap.arrayAt h b := by
  simp [Heap.arrayAt, List.getD_eq_getElem?_getD, List.getElem?_set_ne hab]

theorem arrayAt_append_lt (h : Heap) (b : Nat) (v : List Row) (hb : b < h.length) :
    Heap.arrayAt (h ++ [v]) b = Heap.arrayAt h b := by
  simp [Heap.arrayAt, List.getD_eq_getElem?_getD, List.getElem?_append_left hb]

theorem arrayAt_append_self (h : Heap) (v : List Row) :
    Heap.arrayAt (h ++ [v]) h.length = v := by
  simp [Heap.arrayAt, List.getD_eq_getElem?_getD]

theorem lt_length_of_arrayAt (h : Heap) (a : Nat) (hpos : 0 < (Heap.arrayAt h a).length) :
    a < h.length := by
  by_contra hge
  have : h[a]? = none := List.getElem?_eq_none_iff.mpr (by omega)
  simp [Heap.arrayAt, List.getD_eq_getElem?_getD, this] at hpos

/-- One `append` behind a slice that has no spare capacity, or whose backing
array is not array `a2`: the slice grows by the element, array `a2` is left as
it was, and the same holds again of the new slice. -/
theorem goAppend_spec (grow : Nat → Nat → Nat) (h : Heap) (s : Slice) (x : Row) (a2 : Nat)
    (hwf : s.wf h) (ha : a2 < h.length) (hI : s.array ≠ a2 ∨ s.len = s.cap) :
    (goAppend grow h s x).2.rows (goAppend grow h s x).1 = s.rows h ++ [x]
      ∧ Heap.arrayAt (goAppend grow h s x).1 a2 = Heap.arrayAt h a2
      ∧ (goAppend grow h s x).2.wf (goAppend grow h s x).1
      ∧ a2 < (goAppend grow h s x).1.length
      ∧ ((goAppend grow h s x).2.array ≠ a2
          ∨ (goAppend grow h s x).2.len = (goAppend grow h s x).2.cap) := by
  obtain ⟨hlc, hfit⟩ := hwf
  unfold goAppend
  by_cases hspare : s.len < s.cap
  · have hne : s.array ≠ a2 := by
      rcases hI with h1 | h1
      · exact h1
      · omega
    have hin : s.array < h.length := lt_length_of_arrayAt h _ (by omega)
    simp only [if_pos hspare]
    refine ⟨?_, arrayAt_set_ne h _ _ _ hne, ⟨by simp only; omega, ?_⟩, by simpa using ha,
      Or.inl hne⟩
    · simp only [Slice.rows]
      rw [arrayAt_set_self h _ _ hin, drop_set_add,
        take_set_succ _ _ _ (by rw [List.length_drop]; omega)]
    · simp only
      rw [arrayAt_set_self h _ _ hin, List.length_set]
      exact hfit
  · have hlen : (s.rows h).length = s.len := by
      simp only [Slice.rows, List.length_take, List.length_drop]
      omega
    have key : ∀ (rows pad : Table), rows.length = s.len →
        ((rows ++ [x] ++ pad).drop 0).take (s.len + 1) = rows ++ [x] := by
      intro rows pad hr
      rw [List.drop_zero, List.take_append_of_le_length (by simp [hr]),
        List.take_of_length_le (by simp [hr])]
    have hnew : (⟨h.length, 0, s.len + 1,
        Nat.max (s.len + 1) (grow s.cap (s.len + 1))⟩ : Slice).array ≠ a2 := by
      show h.length ≠ a2
      omega
    simp only [if_neg hspare]
    refine ⟨?_, arrayAt_append_lt h _ _ ha, ⟨Nat.le_max_left _ _, ?_⟩,
      by simp only [List.length_append, List.length_singleton]; omega, Or.inl hnew⟩
    · show ((Heap.arrayAt (h ++ [_]) h.length).drop 0).take (s.len + 1) = _
      rw [arrayAt_append_self]
      exact key _ _ hlen
    · show 0 + Nat.max (s.len + 1) (grow s.cap (s.len + 1))
          ≤ (Heap.arrayAt (h ++ [_]) h.length).length
      rw [arrayAt_append_self]
      have := Nat.le_max_left (s.len + 1) (grow s.cap (s.len + 1))
      simp only [List.length_append, List.length_singleton, List.length_replicate, hlen,
        Nat.zero_add]
      omega

theorem Join2DArray.loop_rows (grow : Nat → Nat → Nat) (pArray2 : Slice) (arr2 : List Row)
    (hfit2 : pArray2.off + pArray2.len ≤ arr2.length) :
    ∀ (n i : Nat) (h : Heap) (s : Slice),
      s.wf h → pArray2.array < h.length → (s.array ≠ pArray2.array ∨ s.len = s.cap) →
      Heap.arrayAt h pArray2.array = arr2 → pArray2.len - i ≤ n →
      (Join2DArray.loop grow pArray2 n i h s).2.rows (Join2DArray.loop grow pArray2 n i h s).1
        = s.rows h ++ ((arr2.drop pArray2.off).take pArray2.len).drop i := by
  intro n
  induction n with
  | zero =>
    intro i h s _ _ _ _ hn
    have : ((arr2.drop pArray2.off).take pArray2.len).drop i = [] :=
      List.drop_eq_nil_of_le (by rw [List.length_take]; omega)
    simp [Join2DArray.loop, this]
  | succ n ih =>
    intro i h s hwf ha hI harr hn
    unfold Join2DArray.loop
    by_cases hi : i < pArray2.len
    · obtain ⟨h1, h2, h3, h4, h5⟩ :=
        goAppend_spec grow h s (pArray2.index h i) pArray2.array hwf ha hI
      have hget : ((arr2.drop pArray2.off).take pArray2.len)[i]? = some (pArray2.index h i) := by
        rw [List.getElem?_take_of_lt hi, List.getElem?_drop]
        simp only [Slice.index, harr, List.getD_eq_getElem?_getD]
        rw [List.getElem?_eq_getElem (by omega)]
        rfl
      simp only [if_pos hi]
      rw [ih (i + 1) _ _ h3 h4 h5 (by rw [h2, harr]) (by omega), h1,
        getElem?_drop_cons _ _ _ hget]
      simp
    · have : ((arr2.drop pArray2.off).take pArray2.len).drop i = [] :=
        List.drop_eq_nil_of_le (by rw [List.length_take]; omega)
      simp [if_neg hi, this]

/-- When the first slice has no spare capacity, or the two slices lie in
different backing arrays, `Join2DArray` returns the rows of the first followed
by the rows of the second. -/
theorem Join2DArray_rows_of_apart (grow : Nat → Nat → Nat) (h : Heap) (pArray1 pArray2 : Slice)
    (hwf1 : pArray1.wf h) (hwf2 : pArray2.wf h) (ha : pArray2.array < h.length)
    (hI : pArray1.array ≠ pArray2.array ∨ pArray1.len = pArray1.cap) :
    (Join2DArray grow h pArray1 pArray2).2.rows (Join2DArray grow h pArray1 pArray2).1
      = pArray1.rows h ++ pArray2.rows h := by
  unfold Join2DArray
  rw [Join2DArray.loop_rows grow pArray2 (Heap.arrayAt h pArray2.array)
    (by obtain ⟨a, b⟩ := hwf2; omega) _ 0 h pArray1 hwf1 ha hI rfl (by omega)]
  simp [Slice.rows]

theorem copyRows_eq (pRows : Table) :
    ∀ (n j : Nat) (acc : Table), pRows.length - j ≤ n →
      copyRows pRows n j acc
        = acc ++ ((pRows.drop j).filter hasCells).takeWhile firstCellNonEmpty := by
  intro n
  induction n with
  | zero =>
    intro j acc h
    have hj : pRows.length ≤ j := by omega
    simp [copyRows, List.drop_eq_nil_of_le hj]
  | succ n ih =>
    intro j acc h
    unfold copyRows
    cases hg : pRows[j]? with
    | none =>
      have hj : pRows.length ≤ j := List.getElem?_eq_none_iff.mp hg
      simp [List.drop_eq_nil_of_le hj]
    | some row =>
      rw [getElem?_drop_cons _ _ _ hg]
      cases row with
      | nil =>
        simp only
        rw [ih (j + 1) acc (by omega)]
        simp [hasCells]
      | cons cell cells =>
        simp only
        by_cases hc : cell = ""
        · simp [hc, hasCells, firstCellNonEmpty]
        · rw [if_pos (by simpa using hc), ih (j + 1) _ (by omega)]
          simp [hasCells, firstCellNonEmpty, hc]

theorem rowAt_of_getElem? (pRows : Table) (i : Nat) (row : Row)
    (h : pRows[i]? = some row) : rowAt pRows i = row := by
  simp [rowAt, List.getD_eq_getElem?_getD, h]

theorem scan1_eq (lower : Char → Char) (m : String) (pRows : Table) :
    ∀ (n i l : Nat), i + n = pRows.length →
      Filter2DArray1.scan lower m pRows n i l
        = (((List.range' i n).filter
            (fun k => rowMatches lower m (rowAt pRows k))).getLast?).getD l := by
  intro n
  induction n with
  | zero => intro i l _; simp [Filter2DArray1.scan]
  | succ n ih =>
    intro i l h
    have hi : i < pRows.length := by omega
    have hg : pRows[i]? = some pRows[i] := List.getElem?_eq_getElem hi
    have hr : rowAt pRows i = pRows[i] := rowAt_of_getElem? _ _ _ hg
    unfold Filter2DArray1.scan
    rw [hg, List.range'_succ]
    simp only
    by_cases hm : rowMatches lower m pRows[i] = true
    · rw [if_pos hm, ih (i + 1) i (by omega), List.filter_cons_of_pos (by rw [hr]; exact hm),
        List.getLast?_cons]
      simp
    · rw [if_neg hm, ih (i + 1) l (by omega), List.filter_cons_of_neg (by rw [hr]; exact hm)]

theorem scan2_eq (lower : Char → Char) (m : String) (pRows : Table) :
    ∀ (n i : Nat) (l : List Nat), i + n = pRows.length →
      Filter2DArray2.scan lower m pRows n i l
        = l ++ (List.range' i n).filter (fun k => rowMatches lower m (rowAt pRows k)) := by
  intro n
  induction n with
  | zero => intro i l _; simp [Filter2DArray2.scan]
  | succ n ih =>
    intro i l h
    have hi : i < pRows.length := by omega
    have hg : pRows[i]? = some pRows[i] := List.getElem?_eq_getElem hi
    have hr : rowAt pRows i = pRows[i] := rowAt_of_getElem? _ _ _ hg
    unfold Filter2DArray2.scan
    rw [hg, List.range'_succ]
    simp only
    by_cases hm : rowMatches lower m pRows[i] = true
    · rw [if_pos hm, ih (i + 1) _ (by omega), List.filter_cons_of_pos (by rw [hr]; exact hm)]
      simp
    · rw [if_neg hm, ih (i + 1) l (by omega), List.filter_cons_of_neg (by rw [hr]; exact hm)]

theorem blocks_eq (pRows : Table) :
    ∀ (idxs : List Nat) (acc : Table),
      Filter2DArray2.blocks pRows idxs acc
        = acc ++ idxs.flatMap
            (fun i => ((pRows.drop (i + 1)).filter hasCells).takeWhile firstCellNonEmpty) := by
  intro idxs
  induction idxs with
  | nil => intro acc; simp [Filter2DArray2.blocks]
  | cons idx rest ih =>
    intro acc
    unfold Filter2DArray2.blocks
    rw [ih, copyRows_eq pRows _ _ _ (Nat.le_refl _)]
    simp [List.flatMap_cons]

theorem hasLead_iff : ∀ (s sub : List Char),
    hasLead s sub = true ↔ ∃ post, s = sub ++ post := by
  intro s sub
  induction sub generalizing s with
  | nil => cases s <;> simp [hasLead]
  | cons d ds ih =>
    cases s with
    | nil => simp [hasLead]
    | cons c cs =>
      simp only [hasLead, Bool.and_eq_true, beq_iff_eq, ih, List.cons_append, List.cons.injEq]
      constructor
      · rintro ⟨rfl, post, rfl⟩; exact ⟨post, rfl, rfl⟩
      · rintro ⟨post, rfl, rfl⟩; exact ⟨rfl, post, rfl⟩

theorem occursIn_iff : ∀ (s sub : List Char),
    occursIn s sub = true ↔ ∃ pre post, s = pre ++ sub ++ post := by
  intro s sub
  induction s with
  | nil =>
    simp only [occursIn, hasLead_iff]
    constructor
    · rintro ⟨post, h⟩; exact ⟨[], post, by simpa using h⟩
    · rintro ⟨pre, post, h⟩
      have h1 : pre ++ sub ++ post = [] := h.symm
      simp only [List.append_eq_nil] at h1
      exact ⟨[], by simp [h1.1.2]⟩
  | cons c cs ih =>
    simp only [occursIn, Bool.or_eq_true, hasLead_iff, ih]
    constructor
    · rintro (⟨post, h⟩ | ⟨pre, post, h⟩)
      · exact ⟨[], post, by simpa using h⟩
      · exact ⟨c :: pre, post, by simp [h]⟩
    · rintro ⟨pre, post, h⟩
      cases pre with
      | nil => exact Or.inl ⟨post, by simpa using h⟩
      | cons p pre =>
        simp only [List.cons_append, List.cons.injEq] at h
        exact Or.inr ⟨pre, post, h.2⟩

/-- The scan test holds on a row exactly when the row has a first cell whose
lowered text has the lowered marker as a contiguous part. -/
theorem rowMatches_iff (lower : Char → Char) (marker : String) (row : Row) :
    rowMatches lower marker row = true ↔
      ∃ cell rest pre post, row = cell :: rest ∧
        cell.data.map lower = pre ++ marker.data.map lower ++ post := by
  cases row with
  | nil => simp [rowMatches]
  | cons cell rest =>
    simp only [rowMatches, strings_Contains, strings_ToLower, occursIn_iff, List.cons.injEq]
    constructor
    · rintro ⟨pre, post, h⟩; exact ⟨cell, rest, pre, post, ⟨rfl, rfl⟩, h⟩
    · rintro ⟨cell1, rest1, pre, post, ⟨rfl, rfl⟩, h⟩; exact ⟨pre, post, h⟩

theorem lastOf_spec (p : Nat → Bool) :
    ∀ (n i d : Nat),
      ((∀ k, i ≤ k → k < i + n → p k = false) →
          (((List.range' i n).filter p).getLast?).getD d = d)
      ∧ (∀ k, i ≤ k → k < i + n → p k = true →
          k ≤ (((List.range' i n).filter p).getLast?).getD d
          ∧ p ((((List.range' i n).filter p).getLast?).getD d) = true
          ∧ (((List.range' i n).filter p).getLast?).getD d < i + n) := by
  intro n
  induction n with
  | zero =>
    intro i d
    refine ⟨fun _ => by simp, fun k h1 h2 _ => by omega⟩
  | succ n ih =>
    intro i d
    rw [List.range'_succ]
    by_cases hp : p i = true
    · rw [List.filter_cons_of_pos hp, List.getLast?_cons]
      simp only [Option.getD_some]
      obtain ⟨ih1, ih2⟩ := ih (i + 1) i
      have key : i ≤ (((List.range' (i + 1) n).filter p).getLast?).getD i
          ∧ p ((((List.range' (i + 1) n).filter p).getLast?).getD i) = true
          ∧ (((List.range' (i + 1) n).filter p).getLast?).getD i < i + (n + 1) := by
        by_cases hall : ∀ k, i + 1 ≤ k → k < i + 1 + n → p k = false
        · rw [ih1 hall]; exact ⟨Nat.le_refl _, hp, by omega⟩
        · push_neg at hall
          obtain ⟨k, hk1, hk2, hk3⟩ := hall
          have hk3 : p k = true := by simpa using hk3
          obtain ⟨a, b, c⟩ := ih2 k hk1 hk2 hk3
          exact ⟨by omega, b, by omega⟩
      refine ⟨fun hall => ?_, fun k hk1 hk2 hk3 => ?_⟩
      · have := hall i (Nat.le_refl _) (by omega)
        rw [hp] at this; cases this
      · by_cases hki : k = i
        · subst hki; exact key
        · obtain ⟨a, b, c⟩ := ih2 k (by omega) (by omega) hk3
          exact ⟨a, b, by omega⟩
    · rw [List.filter_cons_of_neg hp]
      obtain ⟨ih1, ih2⟩ := ih (i + 1) d
      refine ⟨fun hall => ih1 (fun k hk1 hk2 => hall k (by omega) (by omega)),
        fun k hk1 hk2 hk3 => ?_⟩
      have hki : k ≠ i := by rintro rfl; exact hp hk3
      obtain ⟨a, b, c⟩ := ih2 k (by omega) (by omega) hk3
      exact ⟨a, b, by omega⟩

theorem rowAt_eq_getElem (table : Table) (i : Nat) (hi : i < table.length) :
    rowAt table i = table[i] :=
  rowAt_of_getElem? _ _ _ (List.getElem?_eq_getElem hi)

theorem lastMatchIndex_spec (lower : Char → Char) (marker : String) (table : Table) :
    (∀ (i : Nat) (hi : i < table.length), rowMatches lower marker table[i] = true →
        i ≤ lastMatchIndex lower marker table
        ∧ lastMatchIndex lower marker table < table.length
        ∧ rowMatches lower marker (rowAt table (lastMatchIndex lower marker table)) = true)
    ∧ ((∀ (i : Nat) (hi : i < table.length), rowMatches lower marker table[i] = false) →
        lastMatchIndex lower marker table = 0) := by
  have hs := lastOf_spec (fun k => rowMatches lower marker (rowAt table k)) table.length 0 0
  unfold lastMatchIndex matchIndices
  rw [List.range_eq_range']
  obtain ⟨h1, h2⟩ := hs
  refine ⟨fun i hi hm => ?_, fun hall => ?_⟩
  · have := h2 i (Nat.zero_le _) (by omega) (by show rowMatches lower marker (rowAt table i) = true; rw [rowAt_eq_getElem _ _ hi]; exact hm)
    obtain ⟨a, b, c⟩ := this
    exact ⟨a, by omega, b⟩
  · apply h1
    intro k _ hk
    have hk : k < table.length := by omega
    show rowMatches lower marker (rowAt table k) = false
    rw [rowAt_eq_getElem _ _ hk]
    exact hall k hk

theorem mem_matchIndices (lower : Char → Char) (marker : String) (table : Table) (i : Nat) :
    i ∈ matchIndices lower marker table
      ↔ i < table.length ∧ rowMatches lower marker (rowAt table i) = true := by
  simp [matchIndices]

theorem Filter2DArray1_eq (lower : Char → Char) (m : String) (pRows : Table) :
    Filter2DArray1 lower m pRows = blockFrom pRows (lastMatchIndex lower m pRows) := by
  unfold Filter2DArray1
  simp only
  rw [copyRows_eq pRows _ _ _ (Nat.le_refl _), scan1_eq lower m pRows _ 0 0 (by simp)]
  simp [blockFrom, lastMatchIndex, matchIndices, List.range_eq_range']

theorem Filter2DArray2_eq (lower : Char → Char) (m : String) (pRows : Table) :
    Filter2DArray2 lower m pRows
      = (matchIndices lower m pRows).flatMap (fun i => blockFrom pRows (i + 1)) := by
  unfold Filter2DArray2
  simp only
  rw [blocks_eq, scan2_eq lower m pRows _ 0 [] (by simp)]
  simp [blockFrom, matchIndices, List.range_eq_range']

theorem filter_hasCells_of_all (rows : Table) (h : ∀ row ∈ rows, 0 < row.length) :
    rows.filter hasCells = rows := by
  rw [List.filter_eq_self]
  intro row hrow
  have := h row hrow
  cases row with
  | nil => simp at this
  | cons _ _ => rfl

theorem blockFrom_of_all (table : Table) (h : ∀ row ∈ table, 0 < row.length) (start : Nat) :
    blockFrom table start = (table.drop start).takeWhile firstCellNonEmpty := by
  unfold blockFrom
  rw [filter_hasCells_of_all _ (fun row hrow => h row (List.mem_of_mem_drop hrow))]

/-- C1, the code at two slices of one array `t = [[h], [x], [y]]`:
`Join2DArray(t[:1], t)` appends into the spare capacity of `t[:1]`, which is
where the rows `t[1]` and `t[2]` it has yet to read are kept, and returns
`[[h], [h], [h], [h]]` instead of `[[h], [h], [x], [y]]`; likewise
`Join2DArray(t[:2], t[1:])` returns `[[h], [x], [x], [x]]`. -/
theorem Join2DArray_overwrites_shared_rows :
    Slice.rows sharedHeap ⟨0, 0, 1, 3⟩ = [["h"]]
      ∧ Slice.rows sharedHeap ⟨0, 0, 3, 3⟩ = [["h"], ["x"], ["y"]]
      ∧ (Join2DArray doubling sharedHeap ⟨0, 0, 1, 3⟩ ⟨0, 0, 3, 3⟩).2.rows
          (Join2DArray doubling sharedHeap ⟨0, 0, 1, 3⟩ ⟨0, 0, 3, 3⟩).1
        = [["h"], ["h"], ["h"], ["h"]]
      ∧ (Join2DArray doubling sharedHeap ⟨0, 0, 1, 3⟩ ⟨0, 0, 3, 3⟩).2.rows
          (Join2DArray doubling sharedHeap ⟨0, 0, 1, 3⟩ ⟨0, 0, 3, 3⟩).1
        ≠ Slice.rows sharedHeap ⟨0, 0, 1, 3⟩ ++ Slice.rows sharedHeap ⟨0, 0, 3, 3⟩
      ∧ Slice.rows sharedHeap ⟨0, 0, 2, 3⟩ = [["h"], ["x"]]
      ∧ Slice.rows sharedHeap ⟨0, 1, 2, 2⟩ = [["x"], ["y"]]
      ∧ (Join2DArray doubling sharedHeap ⟨0, 0, 2, 3⟩ ⟨0, 1, 2, 2⟩).2.rows
          (Join2DArray doubling sharedHeap ⟨0, 0, 2, 3⟩ ⟨0, 1, 2, 2⟩).1
        = [["h"], ["x"], ["x"], ["x"]] := by
  decide

/-- C2. On a table in which every row has at least one cell, `Filter2DArray1`
returns the longest run of consecutive rows with a non-empty first cell that
starts at index `s`, where `s` is the index of the last row whose first cell
contains the marker case-insensitively, or `0` when no row does. -/
theorem Filter2DArray1_last_match_block (lower : Char → Char) (marker : String)
    (table : Table) (h : ∀ row ∈ table, 0 < row.length) :
    Filter2DArray1 lower marker table
        = (table.drop (lastMatchIndex lower marker table)).takeWhile firstCellNonEmpty
      ∧ (∀ (i : Nat) (hi : i < table.length), rowMatches lower marker table[i] = true →
          i ≤ lastMatchIndex lower marker table
          ∧ lastMatchIndex lower marker table < table.length
          ∧ rowMatches lower marker (rowAt table (lastMatchIndex lower marker table)) = true)
      ∧ ((∀ (i : Nat) (hi : i < table.length), rowMatches lower marker table[i] = false) →
          lastMatchIndex lower marker table = 0) := by
  refine ⟨?_, lastMatchIndex_spec lower marker table⟩
  rw [Filter2DArray1_eq, blockFrom_of_all table h]

/-- C2, at the worked example: marker `"header"` on `headerTable` gives the
rows `HEADER`, `a`, `b`. -/
theorem Filter2DArray1_last_match_block_witness :
    (∀ row ∈ headerTable, 0 < row.length)
      ∧ Filter2DArray1 Char.toLower "header" headerTable
          = (headerTable.drop (lastMatchIndex Char.toLower "header" headerTable)).takeWhile
              firstCellNonEmpty
      ∧ lastMatchIndex Char.toLower "header" headerTable = 1
      ∧ Filter2DArray1 Char.toLower "header" headerTable
          = [["HEADER", "2"], ["a", "3"], ["b", "4"]] :=
  ⟨by decide,
   (Filter2DArray1_last_match_block Char.toLower "header" headerTable (by decide)).1,
   by decide, by decide⟩

/-- C3. On a table in which every row has at least one cell, `Filter2DArray2`
returns the concatenation, over the matching indices `i` in ascending order, of
the longest run of consecutive rows with a non-empty first cell that starts at
index `i + 1`. -/
theorem Filter2DArray2_concat_blocks (lower : Char → Char) (marker : String)
    (table : Table) (h : ∀ row ∈ table, 0 < row.length) :
    Filter2DArray2 lower marker table
        = (matchIndices lower marker table).flatMap
            (fun i => (table.drop (i + 1)).takeWhile firstCellNonEmpty)
      ∧ (matchIndices lower marker table).Pairwise (fun i j => i < j)
      ∧ ∀ i, i ∈ matchIndices lower marker table
          ↔ i < table.length ∧ rowMatches lower marker (rowAt table i) = true := by
  refine ⟨?_, ?_, mem_matchIndices lower marker table⟩
  · rw [Filter2DArray2_eq]
    congr 1
    funext i
    exact blockFrom_of_all table h (i + 1)
  · exact List.Pairwise.filter _ (List.pairwise_lt_range _)

/-- C3, at a table with two marker rows: the two following blocks are joined
in scan order. -/
theorem Filter2DArray2_concat_blocks_witness :
    (∀ row ∈ twoBlockTable, 0 < row.length)
      ∧ Filter2DArray2 Char.toLower "h" twoBlockTable
          = (matchIndices Char.toLower "h" twoBlockTable).flatMap
              (fun i => (twoBlockTable.drop (i + 1)).takeWhile firstCellNonEmpty)
      ∧ matchIndices Char.toLower "h" twoBlockTable = [0, 3]
      ∧ Filter2DArray2 Char.toLower "h" twoBlockTable
          = [["a", "2"], ["b", "5"], ["c", "6"]] :=
  ⟨by decide, (Filter2DArray2_concat_blocks Char.toLower "h" twoBlockTable (by decide)).1,
   by decide, by decide⟩

/-- C4 as stated fails: in `[["a"], [], ["b"]]` the block of `Filter2DArray1`
starts at index 0, the row at index 1 has no cells, and the row `["b"]` behind
it is copied all the same; likewise in `Filter2DArray2` for the block that
follows the marker row of `[["a"], ["x"], [], ["b"]]`. -/
theorem zero_cell_row_does_not_end_block :
    lastMatchIndex Char.toLower "a" [["a"], [], ["b"]] = 0
      ∧ ([["a"], [], ["b"]] : Table)[1]? = some []
      ∧ ([["a"], [], ["b"]] : Table)[2]? = some ["b"]
      ∧ Filter2DArray1 Char.toLower "a" [["a"], [], ["b"]] = [["a"], ["b"]]
      ∧ ["b"] ∈ Filter2DArray1 Char.toLower "a" [["a"], [], ["b"]]
      ∧ (([["a"], [], ["b"]] : Table).drop 0).takeWhile firstCellNonEmpty = [["a"]]
      ∧ matchIndices Char.toLower "a" [["a"], ["x"], [], ["b"]] = [0]
      ∧ ([["a"], ["x"], [], ["b"]] : Table)[2]? = some []
      ∧ Filter2DArray2 Char.toLower "a" [["a"], ["x"], [], ["b"]] = [["x"], ["b"]] := by
  decide

/-- C4, amended. In both filters a row without cells is passed over: it is
neither copied nor does it end the block. The block that starts at an index is
the leading run of rows with a non-empty first cell among the rows from that
index on that have at least one cell, so it ends only at the first row that
has a cell and whose first cell is the empty string, or at the end of the
table. -/
theorem filters_pass_over_zero_cell_rows (lower : Char → Char) (marker : String)
    (table : Table) :
    Filter2DArray1 lower marker table
        = ((table.drop (lastMatchIndex lower marker table)).filter hasCells).takeWhile
            firstCellNonEmpty
      ∧ Filter2DArray2 lower marker table
        = (matchIndices lower marker table).flatMap
            (fun i => ((table.drop (i + 1)).filter hasCells).takeWhile firstCellNonEmpty) := by
  refine ⟨?_, ?_⟩
  · rw [Filter2DArray1_eq]; rfl
  · rw [Filter2DArray2_eq]; rfl

theorem mem_block_split (row : Row) :
    ∀ (l : Table), row ∈ (l.filter hasCells).takeWhile firstCellNonEmpty →
      ∃ pre post, l = pre ++ row :: post ∧ ∀ r ∈ pre, endsBlock r = false := by
  intro l
  induction l with
  | nil => intro h; simp at h
  | cons r rest ih =>
    intro h
    cases r with
    | nil =>
      have h1 : row ∈ (rest.filter hasCells).takeWhile firstCellNonEmpty := by
        simpa [hasCells] using h
      obtain ⟨pre, post, e, hp⟩ := ih h1
      refine ⟨[] :: pre, post, by simp [e], ?_⟩
      intro r hr
      rcases List.mem_cons.mp hr with rfl | hr
      · rfl
      · exact hp r hr
    | cons cell cells =>
      by_cases hc : cell = ""
      · subst hc
        simp [hasCells, firstCellNonEmpty] at h
      · have h1 : row = cell :: cells
            ∨ row ∈ (rest.filter hasCells).takeWhile firstCellNonEmpty := by
          simpa [hasCells, firstCellNonEmpty, hc] using h
        rcases h1 with rfl | h1
        · exact ⟨[], rest, rfl, by simp⟩
        · obtain ⟨pre, post, e, hp⟩ := ih h1
          refine ⟨(cell :: cells) :: pre, post, by simp [e], ?_⟩
          intro r hr
          rcases List.mem_cons.mp hr with rfl | hr
          · simp [endsBlock, hc]
          · exact hp r hr

/-- C5 as stated fails: with two marker rows in a row, the second one lies in
the block that follows the first and is copied into the result. -/
theorem Filter2DArray2_keeps_adjacent_marker_row :
    Filter2DArray2 Char.toLower "h" [["H"], ["H"], ["a"]] = [["H"], ["a"], ["a"]]
      ∧ ∃ row ∈ Filter2DArray2 Char.toLower "h" [["H"], ["H"], ["a"]],
          rowMatches Char.toLower "h" row = true :=
  ⟨by decide, ["H"], by decide, by decide⟩

/-- C5, amended. The block of a marker row starts at the row after it, so a
marker row is never copied into its own block; when every two marker rows are
parted by a row whose first cell is empty, no row of the result of
`Filter2DArray2` has a first cell that contains the marker. -/
theorem Filter2DArray2_excludes_marker_rows (lower : Char → Char) (marker : String)
    (table : Table) (hsep : markersSeparated lower marker table) :
    ∀ row ∈ Filter2DArray2 lower marker table, rowMatches lower marker row = false := by
  intro row hrow
  rw [Filter2DArray2_eq, List.mem_flatMap] at hrow
  obtain ⟨i, hi, hmem⟩ := hrow
  obtain ⟨hilt, him⟩ := (mem_matchIndices lower marker table i).mp hi
  obtain ⟨pre, post, hsplit, hpre⟩ := mem_block_split row _ hmem
  have htab : table = table.take (i + 1) ++ (pre ++ row :: post) := by
    rw [← hsplit, List.take_append_drop]
  have hlen : (table.take (i + 1)).length = i + 1 := by
    rw [List.length_take]; omega
  by_contra hrm
  have hrm : rowMatches lower marker row = true := by simpa using hrm
  have hk : i + 1 + pre.length < table.length := by
    have h1 := congrArg List.length htab
    simp only [List.length_append, List.length_cons, hlen] at h1
    omega
  have hget : ∀ n, n < pre.length → rowAt table (i + 1 + n) = rowAt pre n := by
    intro n hn
    unfold rowAt
    rw [List.getD_eq_getElem?_getD, List.getD_eq_getElem?_getD]
    conv_lhs => rw [htab]
    rw [List.getElem?_append_right (by omega), hlen, List.getElem?_append_left (by omega)]
    congr 2
    omega
  have hrowk : rowAt table (i + 1 + pre.length) = row := by
    unfold rowAt
    rw [List.getD_eq_getElem?_getD]
    conv_lhs => rw [htab]
    rw [List.getElem?_append_right (by omega), hlen,
      List.getElem?_append_right (by omega)]
    simp
  obtain ⟨j, hjk, hij, hend⟩ :=
    hsep (i + 1 + pre.length) hk i (by omega) him (by rw [hrowk]; exact hrm)
  have hjn : j = i + 1 + (j - (i + 1)) := by omega
  rw [hjn, hget _ (by omega)] at hend
  have hmemj : rowAt pre (j - (i + 1)) ∈ pre := by
    unfold rowAt
    rw [List.getD_eq_getElem?_getD, List.getElem?_eq_getElem (by omega)]
    exact List.getElem_mem _
  rw [hpre _ hmemj] at hend
  cases hend

/-- C5, amended, at a table whose two marker rows are parted by a row with an
empty first cell. -/
theorem Filter2DArray2_excludes_marker_rows_witness :
    markersSeparated Char.toLower "h" twoBlockTable
      ∧ ∀ row ∈ Filter2DArray2 Char.toLower "h" twoBlockTable,
          rowMatches Char.toLower "h" row = false :=
  ⟨by decide, Filter2DArray2_excludes_marker_rows Char.toLower "h" twoBlockTable (by decide)⟩

theorem succeeded_iff (x : Run (Table × Option String)) :
    succeeded x = true ↔ ∃ lData, x = Run.returned (lData, none) := by
  cases x with
  | returned a =>
    obtain ⟨lData, err⟩ := a
    cases err with
    | none => simp [succeeded]
    | some e => simp [succeeded]
  | panicked msg => simp [succeeded]
  | running => simp [succeeded]

theorem ReadZip.loop_of_decodes (R : CsvReader) (X : Excelize) (fuel : Nat) (fs : FS) :
    ∀ (File : List ZipFile) (calls : List (Reader × String)) (logged : List Table),
      (∀ e ∈ File, entryDecodes R X fuel e = true) →
      (ReadZip.loop R X fuel fs File calls logged).calls
          = calls ++ File.filterMap (fun e => (readerFor e.Name).map (fun k => (k, e.Name)))
        ∧ (ReadZip.loop R X fuel fs File calls logged).out = Run.returned ([], none)
        ∧ (ReadZip.loop R X fuel fs File calls logged).fs = fs := by
  intro File
  induction File with
  | nil => intro calls logged _; simp [ReadZip.loop]
  | cons lFile rest ih =>
    intro calls logged h
    have hrest : ∀ e ∈ rest, entryDecodes R X fuel e = true :=
      fun e he => h e (List.mem_cons_of_mem _ he)
    have hhead := h lFile (List.mem_cons_self _ _)
    unfold ReadZip.loop
    by_cases h1 : filepath_Ext lFile.Name = ".csv"
    · have hr : readerFor lFile.Name = some Reader.csv := by simp [readerFor, h1]
      simp only [entryDecodes, hr] at hhead
      obtain ⟨lData, hd⟩ := (succeeded_iff _).mp hhead
      rw [if_pos h1, hd]
      simp only
      rw [List.filterMap_cons, hr]
      have := ih (calls ++ [(Reader.csv, lFile.Name)]) (logged ++ [lData]) hrest
      simpa using this
    · by_cases h2 : filepath_Ext lFile.Name = ".txt"
      · have hr : readerFor lFile.Name = some Reader.text := by simp [readerFor, h1, h2]
        simp only [entryDecodes, hr] at hhead
        obtain ⟨lData, hd⟩ := (succeeded_iff _).mp hhead
        rw [if_neg h1, if_pos h2, hd]
        simp only
        rw [List.filterMap_cons, hr]
        have := ih (calls ++ [(Reader.text, lFile.Name)]) (logged ++ [lData]) hrest
        simpa using this
      · by_cases h3 : filepath_Ext lFile.Name = ".xlsx"
        · have hr : readerFor lFile.Name = some Reader.xlsx := by
            simp [readerFor, h1, h2, h3]
          simp only [entryDecodes, hr] at hhead
          rw [if_neg h1, if_neg h2, if_pos h3]
          cases hx : ReadXlsxFromZip X lFile with
          | mk lData err =>
            rw [hx] at hhead
            cases err with
            | some e => simp at hhead
            | none =>
              simp only
              rw [List.filterMap_cons, hr]
              have := ih (calls ++ [(Reader.xlsx, lFile.Name)]) (logged ++ [lData]) hrest
              simpa using this
        · have hr : readerFor lFile.Name = none := by simp [readerFor, h1, h2, h3]
          rw [if_neg h1, if_neg h2, if_neg h3, List.filterMap_cons, hr]
          simpa using ih calls logged hrest

/-- C6. When the download stages succeed and every recognised entry of the
archive decodes, `ReadZip` calls a reader on exactly the entries whose
extension is `.csv` (CSV reader), `.txt` (text reader) or `.xlsx` (XLSX
reader), in archive order, passes over every other entry, and returns a nil
error. -/
theorem ReadZip_dispatches_by_extension (R : CsvReader) (X : Excelize) (w : ZipWorld)
    (fuel : Nat) (fs : FS) (pUrl pFilename : String) (File : List ZipFile)
    (hreq : w.NewRequest pUrl = none) (hdo : w.Do pUrl = none)
    (hcreate : w.Create pFilename = none) (hcopy : w.Copy pFilename = none)
    (hopen : w.OpenReader pFilename = Except.ok File)
    (hdec : ∀ e ∈ File, entryDecodes R X fuel e = true) :
    (ReadZip R X w fuel fs pUrl pFilename).calls
        = File.filterMap (fun e => (readerFor e.Name).map (fun k => (k, e.Name)))
      ∧ (ReadZip R X w fuel fs pUrl pFilename).out = Run.returned ([], none) := by
  unfold ReadZip
  simp only [hreq, hdo, hcreate, hcopy, hopen]
  obtain ⟨h1, h2, _⟩ := ReadZip.loop_of_decodes R X fuel (FS.create fs pFilename) File [] [] hdec
  exact ⟨by simpa using h1, h2⟩

/-- C6, at an archive with `a.csv`, `b.xlsx`, `c.unknown`, `D.CSV` and
`dir/e.txt`: the readers are called on `a.csv`, `b.xlsx` and `dir/e.txt`
only. -/
theorem ReadZip_dispatches_by_extension_witness :
    (∀ e ∈ sampleArchive, entryDecodes plainCsv sheetOne 10 e = true)
      ∧ ((ReadZip plainCsv sheetOne (archiveWorld sampleArchive) 10 [] "u" "x.zip").calls
          = sampleArchive.filterMap (fun e => (readerFor e.Name).map (fun k => (k, e.Name)))
        ∧ (ReadZip plainCsv sheetOne (archiveWorld sampleArchive) 10 [] "u" "x.zip").out
          = Run.returned ([], none))
      ∧ sampleArchive.filterMap (fun e => (readerFor e.Name).map (fun k => (k, e.Name)))
          = [(Reader.csv, "a.csv"), (Reader.xlsx, "b.xlsx"), (Reader.text, "dir/e.txt")] :=
  ⟨by decide,
   ReadZip_dispatches_by_extension plainCsv sheetOne (archiveWorld sampleArchive) 10 [] "u"
     "x.zip" sampleArchive rfl rfl rfl rfl rfl (by decide),
   by decide⟩

theorem readRows_eq (R : CsvReader) (comma : Char) :
    ∀ (n : Nat) (st : R.State) (acc : Table),
      readRows R comma n st acc
        = if (readsBeforeEOF R comma n st).2 = true
          then some (acc ++ (readsBeforeEOF R comma n st).1.map rowOf)
          else none := by
  intro n
  induction n with
  | zero => intro st acc; simp [readRows, readsBeforeEOF]
  | succ n ih =>
    intro st acc
    unfold readRows readsBeforeEOF
    cases hr : R.Read comma st with
    | mk res st1 =>
      cases res with
      | eof => simp
      | record row =>
        simp only
        rw [ih]
        by_cases hb : (readsBeforeEOF R comma n st1).2 = true
        · simp [hb, rowOf]
        · simp [hb]
      | failure row msg =>
        simp only
        rw [ih]
        by_cases hb : (readsBeforeEOF R comma n st1).2 = true
        · simp [hb, rowOf]
        · simp [hb]

/-- C7 as stated fails: on the input `a,b` / `c` the record reader reports
`ErrFieldCount` for the second record, and both `ReadCSV` and `ReadCsvFromZip`
return a nil error, with the rows of both records. -/
theorem record_error_is_not_returned :
    (readsBeforeEOF plainCsv ',' 10 (plainCsv.NewReader "a,b\nc\n")).1
        = [ReadResult.record ["a", "b"],
           ReadResult.failure ["c"] "record on line 2: wrong number of fields"]
      ∧ (readsBeforeEOF plainCsv ',' 10 (plainCsv.NewReader "a,b\nc\n")).1.any isFailure = true
      ∧ ReadCSV plainCsv 10 (uploadOf "a,b\nc\n" "f.csv") "file"
        = Run.returned ([["a", "b"], ["c"]], none)
      ∧ ReadCsvFromZip plainCsv 10 ⟨"f.csv", Except.ok "a,b\nc\n"⟩
        = Run.returned ([["a", "b"], ["c"]], none) := by
  decide

/-- C7, amended. `ReadCSV` and `ReadCsvFromZip` never return the error of a
record: a result of `Read` with an error other than `io.EOF` only adds the row
that came with it, and reading goes on. Once `Read` reports `io.EOF` the call
returns the rows collected so far with a nil error; `io.EOF` is the only
result that ends the loop. -/
theorem delimited_readers_return_nil_error (R : CsvReader) (fuel : Nat) (r : Request)
    (pFile content : String) (header : FileHeader) (file : ZipFile)
    (hform : r.FormFile pFile = Except.ok (content, header))
    (hopen : file.Open = Except.ok content) :
    ReadCSV R fuel r pFile
        = (if (readsBeforeEOF R ',' fuel (R.NewReader content)).2 = true
           then Run.returned ((readsBeforeEOF R ',' fuel (R.NewReader content)).1.map rowOf, none)
           else Run.running)
      ∧ ReadCsvFromZip R fuel file
        = (if (readsBeforeEOF R ',' fuel (R.NewReader content)).2 = true
           then Run.returned ((readsBeforeEOF R ',' fuel (R.NewReader content)).1.map rowOf, none)
           else Run.running) := by
  unfold ReadCSV ReadCsvFromZip GetFileDetails
  simp only [hform, hopen, readRows_eq]
  by_cases hb : (readsBeforeEOF R ',' fuel (R.NewReader content)).2 = true
  · simp [hb]
  · simp [hb]

/-- C7, amended, at the input `a,b` / `c`, whose second record comes with
`ErrFieldCount`. -/
theorem delimited_readers_return_nil_error_witness :
    (uploadOf "a,b\nc\n" "f.csv").FormFile "file" = Except.ok ("a,b\nc\n", ⟨"f.csv"⟩)
      ∧ (⟨"f.csv", Except.ok "a,b\nc\n"⟩ : ZipFile).Open = Except.ok "a,b\nc\n"
      ∧ (readsBeforeEOF plainCsv ',' 10 (plainCsv.NewReader "a,b\nc\n")).2 = true
      ∧ (ReadCSV plainCsv 10 (uploadOf "a,b\nc\n" "f.csv") "file"
          = (if (readsBeforeEOF plainCsv ',' 10 (plainCsv.NewReader "a,b\nc\n")).2 = true
             then Run.returned
               ((readsBeforeEOF plainCsv ',' 10 (plainCsv.NewReader "a,b\nc\n")).1.map rowOf, none)
             else Run.running)
        ∧ ReadCsvFromZip plainCsv 10 ⟨"f.csv", Except.ok "a,b\nc\n"⟩
          = (if (readsBeforeEOF plainCsv ',' 10 (plainCsv.NewReader "a,b\nc\n")).2 = true
             then Run.returned
               ((readsBeforeEOF plainCsv ',' 10 (plainCsv.NewReader "a,b\nc\n")).1.map rowOf, none)
             else Run.running)) :=
  ⟨rfl, rfl, by decide,
   delimited_readers_return_nil_error plainCsv 10 (uploadOf "a,b\nc\n" "f.csv") "file"
     "a,b\nc\n" ⟨"f.csv"⟩ ⟨"f.csv", Except.ok "a,b\nc\n"⟩ rfl rfl⟩

theorem ReadTextFromZip.loop_pipe (R : CsvReader) :
    ∀ (n : Nat) (st : R.State) (acc : Table),
      ReadTextFromZip.loop R n '|' st acc = readRows R '|' n st acc := by
  intro n
  induction n with
  | zero => intro st acc; rfl
  | succ n ih =>
    intro st acc
    unfold ReadTextFromZip.loop readRows
    cases hr : R.Read '|' st with
    | mk res st1 =>
      cases res with
      | eof => rfl
      | record row => simp only; exact ih _ _
      | failure row msg => simp only; exact ih _ _

/-- The first record of a text entry is read with the comma as separator, and
only the records after it with `|`. -/
theorem ReadTextFromZip_first_read (R : CsvReader) (fuel : Nat) (name content : String) :
    ReadTextFromZip R (fuel + 1) ⟨name, Except.ok content⟩
      = match R.Read ',' (R.NewReader content) with
        | (ReadResult.eof, _) => Run.returned ([], none)
        | (res, st1) =>
          match readRows R '|' fuel st1 [rowOf res] with
          | none => Run.running
          | some lRecord => Run.returned (lRecord, none) := by
  unfold ReadTextFromZip
  simp only
  unfold ReadTextFromZip.loop
  cases hr : R.Read ',' (R.NewReader content) with
  | mk res st1 =>
    cases res with
    | eof => rfl
    | record row => simp only [ReadTextFromZip.loop_pipe, rowOf, List.nil_append]
    | failure row msg => simp only [ReadTextFromZip.loop_pipe, rowOf, List.nil_append]

/-- C8, the code at the entry `a|b,c`: `ReadTextFromZip` splits the first line
at the comma and gives `["a|b", "c"]`, where `ReadText` gives `["a", "b,c"]`
for the same bytes. -/
theorem ReadTextFromZip_splits_first_line_at_comma :
    ReadTextFromZip plainCsv 10 ⟨"t.txt", Except.ok "a|b,c\n"⟩
        = Run.returned ([["a|b", "c"]], none)
      ∧ ReadText plainCsv 10 (uploadOf "a|b,c\n" "t.txt") "file"
        = Run.returned ([["a", "b,c"]], none) := by
  decide

theorem ReadZip.loop_fs (R : CsvReader) (X : Excelize) (fuel : Nat) (fs : FS) :
    ∀ (File : List ZipFile) (calls : List (Reader × String)) (logged : List Table),
      (ReadZip.loop R X fuel fs File calls logged).fs = fs := by
  intro File
  induction File with
  | nil => intro calls logged; rfl
  | cons lFile rest ih =>
    intro calls logged
    unfold ReadZip.loop
    split
    · split <;> first | rfl | exact ih _ _
    · split
      · split <;> first | rfl | exact ih _ _
      · split
        · split <;> first | rfl | exact ih _ _
        · exact ih _ _

theorem FS.mem_create (fs : FS) (name : String) : name ∈ FS.create fs name := by
  unfold FS.create
  split
  · assumption
  · exact List.mem_cons_self _ _

theorem FS.not_mem_remove (fs : FS) (name : String) : name ∉ FS.remove fs name := by
  simp [FS.remove]

/-- C9 as stated fails: a run of `ReadZip` in which every call succeeds, on an
empty filesystem and an archive without entries, returns a nil error and
leaves the file `x.zip` it created in the filesystem; so does a run that
returns the error of `zip.OpenReader`. -/
theorem ReadZip_leaves_its_file :
    (ReadZip plainCsv sheetOne (archiveWorld []) 10 [] "u" "x.zip").out
        = Run.returned ([], none)
      ∧ (ReadZip plainCsv sheetOne (archiveWorld []) 10 [] "u" "x.zip").fs = ["x.zip"]
      ∧ (ReadZip plainCsv sheetOne
            ⟨fun _ => none, fun _ => none, fun _ => none, fun _ => none,
              fun _ => Except.error "zip: not a valid zip file"⟩ 10 [] "u" "x.zip").out
        = Run.returned ([], some "ReadZip:005zip: not a valid zip file")
      ∧ (ReadZip plainCsv sheetOne
            ⟨fun _ => none, fun _ => none, fun _ => none, fun _ => none,
              fun _ => Except.error "zip: not a valid zip file"⟩ 10 [] "u" "x.zip").fs
        = ["x.zip"] := by
  decide

/-- C9, amended. After a call of `ReadXlsxFile` that returns a nil error, the
file it created does not exist. `ReadZip` never removes the file it creates:
after every call of `ReadZip` that created its file, however it ends, the file
exists. -/
theorem temp_file_after_call (R : CsvReader) (X : Excelize) (fuel : Nat) (fs : FS) :
    (∀ (w : UploadWorld) (r : Request) (pFile content : String) (header : FileHeader),
        r.FormFile pFile = Except.ok (content, header) →
        (ReadXlsxFile X w fs r pFile).2 = none →
        ("./" ++ header.Filename) ∉ (ReadXlsxFile X w fs r pFile).1)
      ∧ (∀ (w : ZipWorld) (pUrl pFilename : String),
        w.NewRequest pUrl = none → w.Do pUrl = none → w.Create pFilename = none →
        pFilename ∈ (ReadZip R X w fuel fs pUrl pFilename).fs) := by
  refine ⟨?_, ?_⟩
  · intro w r pFile content header hform hret
    unfold ReadXlsxFile GetFileDetails at hret ⊢
    simp only [hform] at hret ⊢
    split at hret
    · simp at hret
    · split at hret
      · simp at hret
      · split at hret
        · simp at hret
        · split at hret
          · simp at hret
          · split at hret
            · simp at hret
            · exact FS.not_mem_remove _ _
  · intro w pUrl pFilename hreq hdo hcreate
    unfold ReadZip
    simp only [hreq, hdo, hcreate]
    split
    · exact FS.mem_create _ _
    · split
      · exact FS.mem_create _ _
      · rw [ReadZip.loop_fs]
        exact FS.mem_create _ _

/-- C9, amended, at an upload `up.xlsx` that decodes and at an archive without
entries. -/
theorem temp_file_after_call_witness :
    ((uploadOf "PK" "up.xlsx").FormFile "file" = Except.ok ("PK", ⟨"up.xlsx"⟩)
        ∧ (ReadXlsxFile tabName uploadWorld [] (uploadOf "PK" "up.xlsx") "file").2 = none
        ∧ "./up.xlsx" ∉ (ReadXlsxFile tabName uploadWorld [] (uploadOf "PK" "up.xlsx") "file").1)
      ∧ ((archiveWorld []).NewRequest "u" = none ∧ (archiveWorld []).Do "u" = none
        ∧ (archiveWorld []).Create "x.zip" = none
        ∧ "x.zip" ∈ (ReadZip plainCsv tabName (archiveWorld []) 10 [] "u" "x.zip").fs) :=
  ⟨⟨rfl, by decide,
     (temp_file_after_call plainCsv tabName 10 []).1 uploadWorld (uploadOf "PK" "up.xlsx")
       "file" "PK" ⟨"up.xlsx"⟩ rfl (by decide)⟩,
   ⟨rfl, rfl, rfl,
     (temp_file_after_call plainCsv tabName 10 []).2 (archiveWorld []) "u" "x.zip" rfl rfl rfl⟩⟩

theorem doPrintf_plain :
    ∀ (n : Nat) (format buf : List Char), format.length ≤ n → '%' ∉ format →
      doPrintf n format buf = buf ++ format := by
  intro n
  induction n with
  | zero =>
    intro format buf h _
    have : format = [] := List.length_eq_zero.mp (by omega)
    simp [doPrintf, this]
  | succ n ih =>
    intro format buf h hp
    cases format with
    | nil => simp [doPrintf]
    | cons c cs =>
      have hc : c ≠ '%' := fun e => hp (by simp [e])
      have hcs : '%' ∉ cs := fun e => hp (List.mem_cons_of_mem _ e)
      unfold doPrintf
      rw [if_neg hc, ih cs _ (by simpa using h) hcs]
      simp

/-- A format without `%` comes out of `fmt.Errorf` as it is. -/
theorem fmt_Errorf_plain (format : String) (h : '%' ∉ format.data) :
    fmt_Errorf format = format := by
  unfold fmt_Errorf
  rw [doPrintf_plain _ _ _ (Nat.le_refl _) h]
  rfl

/-- C10, the code at the URL `http://a%zz`: the cause has the text
`parse "http://a%zz": invalid URL escape "%zz"`, and the error `ReadZip`
returns reads `%!z(MISSING)z` where the cause reads `%zz`; the same happens to
the cause of `GetFileDetails`. -/
theorem ReadZip_error_text_is_reformatted :
    (ReadZip plainCsv sheetOne badUrlWorld 10 [] "http://a%zz" "x.zip").out
        = Run.returned ([], some
            "ReadZip:001parse \"http://a%!z(MISSING)z\": invalid URL escape \"%!z(MISSING)z\"")
      ∧ (ReadZip plainCsv sheetOne badUrlWorld 10 [] "http://a%zz" "x.zip").out
        ≠ Run.returned ([], some ("ReadZip:001" ++ badEscape))
      ∧ (match GetFileDetails ⟨fun _ => Except.error "invalid URL escape \"%zz\""⟩ "file" with
          | Except.error lErr => lErr
          | Except.ok _ => "")
        = "GetFileDetails:001invalid URL escape \"%!z(MISSING)z\"" := by
  decide

/-- C11, the code at an entry that cannot be opened: `ReadCsvFromZip` and
`ReadTextFromZip` do not return, whatever the cause and the reader; the
deferred `Close` on the nil reader panics, so no table and no error tagged
`ReadCsvFromZip:001` or `ReadTextFromZip:001` reaches the caller, and `ReadZip`
ends in the same panic. -/
theorem readers_panic_when_open_fails (R : CsvReader) (fuel : Nat) (name err : String) :
    ReadCsvFromZip R fuel ⟨name, Except.error err⟩ = Run.panicked nilDereference
      ∧ ReadTextFromZip R fuel ⟨name, Except.error err⟩ = Run.panicked nilDereference
      ∧ (∀ lData lErr, ReadCsvFromZip R fuel ⟨name, Except.error err⟩
          ≠ Run.returned (lData, lErr))
      ∧ (∀ lData lErr, ReadTextFromZip R fuel ⟨name, Except.error err⟩
          ≠ Run.returned (lData, lErr))
      ∧ (ReadZip plainCsv sheetOne
            (archiveWorld [⟨"a.csv", Except.error "zip: unsupported compression algorithm"⟩])
            10 [] "u" "x.zip").out
          = Run.panicked nilDereference := by
  refine ⟨rfl, rfl, ?_, ?_, by decide⟩
  · intro lData lErr h
    have h1 : ReadCsvFromZip R fuel ⟨name, Except.error err⟩ = Run.panicked nilDereference := rfl
    rw [h1] at h
    cases h
  · intro lData lErr h
    have h1 : ReadTextFromZip R fuel ⟨name, Except.error err⟩ = Run.panicked nilDereference :=
      rfl
    rw [h1] at h
    cases h

theorem mem_blockFrom (table : Table) (start : Nat) (row : Row)
    (h : row ∈ blockFrom table start) : row ∈ table ∧ firstCellNonEmpty row = true := by
  unfold blockFrom at h
  refine ⟨?_, List.mem_takeWhile_imp h⟩
  exact List.mem_of_mem_drop
    (List.mem_of_mem_filter ((List.takeWhile_sublist _).subset h))

theorem firstCellNonEmpty_iff (row : Row) :
    firstCellNonEmpty row = true ↔ ∃ cell rest, row = cell :: rest ∧ cell ≠ "" := by
  cases row with
  | nil => simp [firstCellNonEmpty]
  | cons cell rest => simp [firstCellNonEmpty]

theorem hasCells_of_firstCellNonEmpty (row : Row) (h : firstCellNonEmpty row = true) :
    hasCells row = true := by
  cases row with
  | nil => simp [firstCellNonEmpty] at h
  | cons cell rest => rfl

theorem blockFrom_zero_of_all (rows : Table)
    (h : ∀ row ∈ rows, firstCellNonEmpty row = true) : blockFrom rows 0 = rows := by
  unfold blockFrom
  rw [List.drop_zero,
    List.filter_eq_self.mpr (fun row hrow => hasCells_of_firstCellNonEmpty row (h row hrow)),
    List.takeWhile_eq_self_iff.mpr h]

theorem lastMatchIndex_of_tail (lower : Char → Char) (marker : String) (rows : Table)
    (h : ∀ (i : Nat) (hi : i < rows.length), 0 < i → rowMatches lower marker rows[i] = false) :
    lastMatchIndex lower marker rows = 0 := by
  obtain ⟨h1, h2⟩ := lastMatchIndex_spec lower marker rows
  by_cases hex : ∃ (i : Nat) (hi : i < rows.length), rowMatches lower marker rows[i] = true
  · obtain ⟨i, hi, hm⟩ := hex
    obtain ⟨_, hlt, hmatch⟩ := h1 i hi hm
    by_contra hne
    rw [rowAt_eq_getElem rows _ hlt, h _ hlt (by omega)] at hmatch
    cases hmatch
  · apply h2
    intro i hi
    by_contra hm
    exact hex ⟨i, hi, by simpa using hm⟩

theorem not_matches_after_last (lower : Char → Char) (marker : String) (table : Table) :
    ∀ row ∈ table.drop (lastMatchIndex lower marker table + 1),
      rowMatches lower marker row = false := by
  intro row hrow
  obtain ⟨n, hn, rfl⟩ := List.mem_iff_getElem.mp hrow
  rw [List.getElem_drop]
  by_contra hm
  have hlt : lastMatchIndex lower marker table + 1 + n < table.length := by
    rw [List.length_drop] at hn; omega
  have := ((lastMatchIndex_spec lower marker table).1 _ hlt (by simpa using hm)).1
  omega

/-- In the block that `Filter2DArray1` returns, no row after the first passes
the scan test. -/
theorem block_tail_not_matching (lower : Char → Char) (marker : String) (table : Table) :
    ∀ (i : Nat) (hi : i < (blockFrom table (lastMatchIndex lower marker table)).length),
      0 < i →
      rowMatches lower marker (blockFrom table (lastMatchIndex lower marker table))[i]
        = false := by
  by_cases hex : ∃ (k : Nat) (hk : k < table.length), rowMatches lower marker table[k] = true
  · obtain ⟨k, hk, hm⟩ := hex
    obtain ⟨_, hlt, hmatch⟩ := (lastMatchIndex_spec lower marker table).1 k hk hm
    rw [rowAt_eq_getElem table _ hlt] at hmatch
    have hcells : hasCells table[lastMatchIndex lower marker table] = true := by
      cases hrow : table[lastMatchIndex lower marker table] with
      | nil => rw [hrow] at hmatch; simp [rowMatches] at hmatch
      | cons _ _ => rfl
    have hshape : blockFrom table (lastMatchIndex lower marker table)
        = if firstCellNonEmpty table[lastMatchIndex lower marker table] = true
          then table[lastMatchIndex lower marker table]
            :: ((table.drop (lastMatchIndex lower marker table + 1)).filter hasCells).takeWhile
                firstCellNonEmpty
          else [] := by
      unfold blockFrom
      rw [List.drop_eq_getElem_cons hlt, List.filter_cons_of_pos hcells, List.takeWhile_cons]
    intro i hi hpos
    by_cases hp : firstCellNonEmpty table[lastMatchIndex lower marker table] = true
    · have hmem : (blockFrom table (lastMatchIndex lower marker table))[i]
          ∈ ((table.drop (lastMatchIndex lower marker table + 1)).filter hasCells).takeWhile
              firstCellNonEmpty := by
        simp only [hshape, if_pos hp]
        obtain ⟨j, rfl⟩ : ∃ j, i = j + 1 := ⟨i - 1, by omega⟩
        rw [List.getElem_cons_succ]
        exact List.getElem_mem _
      exact not_matches_after_last lower marker table _
        (List.mem_of_mem_filter ((List.takeWhile_sublist _).subset hmem))
    · rw [hshape, if_neg hp] at hi
      simp at hi
  · intro i hi _
    have hmem := (mem_blockFrom table _ _ (List.getElem_mem hi)).1
    obtain ⟨n, hn, hrow⟩ := List.mem_iff_getElem.mp hmem
    by_contra hm
    exact hex ⟨n, hn, by rw [hrow]; simpa using hm⟩

/-- C12. `Filter2DArray1` is idempotent in its table: for every marker and
every table, ragged ones and ones with rows without cells included, filtering
the result again with the same marker gives the result back. -/
theorem Filter2DArray1_idempotent (lower : Char → Char) (marker : String) (table : Table) :
    Filter2DArray1 lower marker (Filter2DArray1 lower marker table)
      = Filter2DArray1 lower marker table := by
  rw [Filter2DArray1_eq lower marker table,
    Filter2DArray1_eq lower marker (blockFrom table (lastMatchIndex lower marker table)),
    lastMatchIndex_of_tail lower marker _ (block_tail_not_matching lower marker table)]
  exact blockFrom_zero_of_all _ (fun row hrow => (mem_blockFrom table _ row hrow).2)

/-- C13. Every row of the result of `Filter2DArray1` and of `Filter2DArray2`
is a row of the input table, has at least one cell, and its first cell is not
the empty string. -/
theorem filter_rows_from_table (lower : Char → Char) (marker : String) (table : Table) :
    (∀ row ∈ Filter2DArray1 lower marker table,
        row ∈ table ∧ 0 < row.length ∧ ∃ cell rest, row = cell :: rest ∧ cell ≠ "")
      ∧ (∀ row ∈ Filter2DArray2 lower marker table,
        row ∈ table ∧ 0 < row.length ∧ ∃ cell rest, row = cell :: rest ∧ cell ≠ "") := by
  have key : ∀ (start : Nat) (row : Row), row ∈ blockFrom table start →
      row ∈ table ∧ 0 < row.length ∧ ∃ cell rest, row = cell :: rest ∧ cell ≠ "" := by
    intro start row hrow
    obtain ⟨hmem, hfirst⟩ := mem_blockFrom table start row hrow
    obtain ⟨cell, rest, rfl, hne⟩ := (firstCellNonEmpty_iff row).mp hfirst
    exact ⟨hmem, by simp, cell, rest, rfl, hne⟩
  refine ⟨fun row hrow => ?_, fun row hrow => ?_⟩
  · rw [Filter2DArray1_eq] at hrow
    exact key _ row hrow
  · rw [Filter2DArray2_eq, List.mem_flatMap] at hrow
    obtain ⟨i, _, hmem⟩ := hrow
    exact key _ row hmem

/-- C13, at a ragged table with a row without cells: the row `["b"]` behind
that row is in both results, is a row of the table and starts with a cell that
is not empty. -/
theorem filter_rows_from_table_witness :
    (["b"] ∈ Filter2DArray1 Char.toLower "m" raggedTable
        ∧ (["b"] ∈ raggedTable ∧ 0 < (["b"] : Row).length
          ∧ ∃ cell rest, (["b"] : Row) = cell :: rest ∧ cell ≠ ""))
      ∧ (["b"] ∈ Filter2DArray2 Char.toLower "m" raggedTable
        ∧ (["b"] ∈ raggedTable ∧ 0 < (["b"] : Row).length
          ∧ ∃ cell rest, (["b"] : Row) = cell :: rest ∧ cell ≠ "")) :=
  ⟨⟨by decide, (filter_rows_from_table Char.toLower "m" raggedTable).1 ["b"] (by decide)⟩,
   ⟨by decide, (filter_rows_from_table Char.toLower "m" raggedTable).2 ["b"] (by decide)⟩⟩

end ReadFiles
